import Mathlib

set_option maxRecDepth 100000

/-!
# Remote-write example client (`main.go`)

A shallow embedding of the program: the example series it builds, the encoder
`marshalWriteRequest`, the HTTP client method `Client.Store`, the flag check
`checkSet` and the control flow of `main`.

Conventions of the embedding.

* A Go `string` and a Go `[]byte` are both sequences of bytes, `List UInt8`.
* A Go `(T, error)` result is an `Except GoError T`; a Go `error` result is an
  `Option GoError`, `none` standing for `nil`.
* The third-party encoders (`proto.Marshal`, `snappy.Encode`), the HTTP round
  trip (`http.Client.Do`) and the clock (`time.Now`) are inputs of the model:
  the program is a function of what they return. The encoders the program is
  built with are modelled as the instance `wireCodec`.
* Calls that leave the process are recorded as a list of `Event`s.
-/

namespace RemoteWrite

/-! ## Byte strings -/

/-- A Go byte slice. -/
abbrev Bytes := List UInt8

/-- A Go string: an immutable sequence of bytes. -/
abbrev GoString := List UInt8

/-- The bytes of an ASCII string literal of the source. -/
def str (s : String) : GoString := s.data.map fun c => UInt8.ofNat c.toNat

/-! ## The `prompb` messages -/

/-- A Go `float64`, kept as its IEEE-754 binary64 bit pattern. -/
structure Float64 where
  bits : Nat
deriving DecidableEq, Repr

/-- The constant `1` converted to `float64`: sign 0, exponent 1023, mantissa 0. -/
def Float64.one : Float64 := ⟨0x3FF0000000000000⟩

/-- Modelled from the spec: message `prompb.Label`, declared outside the
repository: a name and a value, both strings. -/
structure Label where
  Name : GoString
  Value : GoString
deriving DecidableEq, Repr

/-- Modelled from the spec: message `prompb.Sample`, declared outside the
repository: a `float64` value and an `int64` timestamp in milliseconds. -/
structure Sample where
  Value : Float64
  Timestamp : Int
deriving DecidableEq, Repr

/-- Modelled from the spec: message `prompb.TimeSeries`, declared outside the
repository: an ordered sequence of labels and an ordered sequence of samples.
The elements of `Labels` are the labels the pointers refer to. -/
structure TimeSeries where
  Labels : List Label
  Samples : List Sample
deriving DecidableEq, Repr

/-- Modelled from the spec: message `prompb.WriteRequest`, declared outside the
repository: an ordered sequence of series. -/
structure WriteRequest where
  Timeseries : List TimeSeries
deriving DecidableEq, Repr

/-! ## Errors -/

/-- The error values the program handles. `fundamental` is the value made by
`errors.Errorf` of `github.com/pkg/errors`; `foreign` is an error value handed
back by a library (`net/http`, `net/url`, `proto`). -/
inductive GoError where
  | fundamental (msg : GoString)
  | foreign (msg : GoString)
deriving DecidableEq, Repr

/-- The dynamic type of an error value, which is what a caller can switch on. -/
inductive ErrorClass where
  | pkgErrorsFundamental
  | library
deriving DecidableEq, Repr

/-- The class (dynamic type) of an error value. -/
def GoError.errorClass : GoError → ErrorClass
  | .fundamental _ => .pkgErrorsFundamental
  | .foreign _ => .library

/-- Method `Error()`: the message of an error value. -/
def GoError.Error : GoError → GoString
  | .fundamental msg => msg
  | .foreign msg => msg

/-! ## Constants of the program -/

/-- Source: `const maxErrMsgLen = 256`. -/
def maxErrMsgLen : Nat := 256

/-- Source: `var version = "1.0.0"`. -/
def version : GoString := str "1.0.0"

/-- Source: `var userAgent = fmt.Sprintf("CustomClient/%v", version)`. -/
def userAgent : GoString := str "CustomClient/" ++ version

/-- The URL literal passed to `http.NewRequest` in `Store`. -/
def pushURL : GoString := str "https://prometheus-us-central1.grafana.net/api/prom/push"

/-! ## The clock and `buildExampleWriteRequest` -/

/-- A reading of `time.Now()`: an instant, in nanoseconds since the Unix epoch. -/
structure Time where
  unixNano : Int
deriving DecidableEq, Repr

/-- Source constant `time.Second`, a `Duration` in nanoseconds. -/
def Second : Int := 1000000000

/-- Method `Time.Add`: the instant moved by a duration. -/
def Time.Add (t : Time) (d : Int) : Time := ⟨t.unixNano + d⟩

/-- Method `Time.Unix`: whole seconds since the epoch, rounded down. -/
def Time.Unix (t : Time) : Int := t.unixNano / 1000000000

/-- Wrap-around of an `int64` result. -/
def wrapInt64 (x : Int) : Int := (x + 2 ^ 63) % 2 ^ 64 - 2 ^ 63

/-- Multiplication of two `int64` values. -/
def mulInt64 (x y : Int) : Int := wrapInt64 (x * y)

/-- Source: `buildExampleWriteRequest`; `t1` and `t2` are the readings of the
two `time.Now()` calls, in the order the composite literal evaluates them. -/
def buildExampleWriteRequest (t1 t2 : Time) : List TimeSeries :=
  [ { Labels :=
        [ { Name := str "__name__", Value := str "random_metric" },
          { Name := str "example_label_name", Value := str "example_label_value" } ],
      Samples :=
        [ { Value := Float64.one, Timestamp := mulInt64 (t1.Add (-Second)).Unix 1000 },
          { Value := Float64.one, Timestamp := mulInt64 t2.Unix 1000 } ] } ]

/-! ## The encoder -/

/-- The encoding libraries. `protoMarshal` is `proto.Marshal` on a
`*prompb.WriteRequest` and `snappyEncode` is `snappy.Encode(nil, ·)`, the two
calls of the program; `protoUnmarshal` and `snappyDecode` are their inverses,
`proto.Unmarshal` and `snappy.Decode(nil, ·)`, which a receiver runs. -/
structure Codec where
  protoMarshal : WriteRequest → Except GoError Bytes
  snappyEncode : Bytes → Bytes
  snappyDecode : Bytes → Except GoError Bytes
  protoUnmarshal : Bytes → Except GoError WriteRequest

/-- Source: `marshalWriteRequest`. The result `.error err` is the Go pair
`(nil, err)`, the result `.ok compressed` is `(compressed, nil)`. -/
def marshalWriteRequest (lib : Codec) (samples : List TimeSeries) : Except GoError Bytes :=
  let req : WriteRequest := { Timeseries := samples }
  match lib.protoMarshal req with
  | .error err => .error err
  | .ok data =>
    let compressed := lib.snappyEncode data
    .ok compressed

/-- What a receiver does with a payload: snappy-decompress, then deserialize. -/
def decodeWriteRequest (lib : Codec) (payload : Bytes) : Except GoError WriteRequest :=
  match lib.snappyDecode payload with
  | .error err => .error err
  | .ok data => lib.protoUnmarshal data

/-! ## `net/http` requests -/

/-- Table `httpguts.IsTokenRune` (the same table as `validHeaderFieldByte`):
the bytes allowed in a method name and in a header key. -/
def isTokenByte (c : UInt8) : Bool :=
  (48 ≤ c && c ≤ 57) || (65 ≤ c && c ≤ 90) || (97 ≤ c && c ≤ 122) ||
  c == 33 || c == 35 || c == 36 || c == 37 || c == 38 || c == 39 || c == 42 ||
  c == 43 || c == 45 || c == 46 || c == 94 || c == 95 || c == 96 || c == 124 ||
  c == 126

/-- Upper-case an ASCII letter. -/
def toUpperByte (c : UInt8) : UInt8 := if 97 ≤ c && c ≤ 122 then c - 32 else c

/-- Lower-case an ASCII letter. -/
def toLowerByte (c : UInt8) : UInt8 := if 65 ≤ c && c ≤ 90 then c + 32 else c

/-- The case pass of `textproto.CanonicalMIMEHeaderKey`: the first letter and
every letter after a hyphen is upper-cased, every other letter lower-cased. -/
def canonicalCase : Bool → GoString → GoString
  | _, [] => []
  | upper, c :: cs =>
    (if upper then toUpperByte c else toLowerByte c) :: canonicalCase (c == 45) cs

/-- `textproto.CanonicalMIMEHeaderKey`: a key with a byte outside the token
table is returned unchanged. -/
def canonicalMIMEHeaderKey (s : GoString) : GoString :=
  if s.all isTokenByte then canonicalCase true s else s

/-- An `http.Header`: canonical keys with their lists of values. -/
abbrev Header := List (GoString × List GoString)

/-- The values stored under a key that is already canonical. -/
def Header.values (h : Header) (key : GoString) : List GoString :=
  match h with
  | [] => []
  | (k, vs) :: rest => if k = key then vs else Header.values rest key

/-- Store a list of values under a canonical key, replacing the old ones. -/
def Header.put (h : Header) (key : GoString) (vs : List GoString) : Header :=
  match h with
  | [] => [(key, vs)]
  | (k, old) :: rest => if k = key then (k, vs) :: rest else (k, old) :: Header.put rest key vs

/-- `Header.Add`: append a value to those of the canonicalised key. -/
def Header.Add (h : Header) (key value : GoString) : Header :=
  let k := canonicalMIMEHeaderKey key
  Header.put h k (Header.values h k ++ [value])

/-- `Header.Set`: the canonicalised key gets the single value. -/
def Header.Set (h : Header) (key value : GoString) : Header :=
  Header.put h (canonicalMIMEHeaderKey key) [value]

/-- The alphabet of `base64.StdEncoding`. -/
def base64Alphabet : GoString :=
  str "ABCDEFGHIJKLMNOPQRSTUVWXYZabcdefghijklmnopqrstuvwxyz0123456789+/"

/-- The character for a 6-bit group. -/
def base64Char (n : Nat) : UInt8 := base64Alphabet.getD n 61

/-- `base64.StdEncoding.EncodeToString`: three bytes give four characters, a
remainder of one or two bytes is padded with `=`. -/
def base64Encode : Bytes → GoString
  | [] => []
  | [a] => [base64Char (a.toNat / 4), base64Char (a.toNat % 4 * 16), 61, 61]
  | [a, b] =>
    [base64Char (a.toNat / 4), base64Char (a.toNat % 4 * 16 + b.toNat / 16),
     base64Char (b.toNat % 16 * 4), 61]
  | a :: b :: c :: rest =>
    base64Char (a.toNat / 4) :: base64Char (a.toNat % 4 * 16 + b.toNat / 16) ::
    base64Char (b.toNat % 16 * 4 + c.toNat / 64) :: base64Char (c.toNat % 64) ::
    base64Encode rest

/-- Function `basicAuth` of `net/http`: base64 of `username:password`. -/
def basicAuth (username password : GoString) : GoString :=
  base64Encode (username ++ str ":" ++ password)

/-- An outgoing `http.Request`, as handed to the transport. `Timeout` is the
deadline of the request context, in nanoseconds from its creation (`none` for
the background context). -/
structure Request where
  Method : GoString
  URL : GoString
  Header : Header
  Body : Bytes
  Timeout : Option Int
deriving DecidableEq, Repr

/-- Function `validMethod` of `net/http`: a non-empty token. -/
def validMethod (method : GoString) : Bool :=
  decide (method.length > 0) && method.all isTokenByte

/-- No byte below the space and no DEL: `stringContainsCTLByte`. -/
def containsCTLByte (s : GoString) : Bool := s.any fun c => c < 32 || c == 127

/-- Function `getScheme` of `net/url` as a test: `false` exactly when it
reports `missing protocol scheme`, which is when the URL starts with a colon. -/
def schemeOK (s : GoString) : Bool :=
  match s with
  | 58 :: _ => false
  | _ => true

/-- `http.NewRequest`: the method must be a valid token and the URL must
parse; of `url.Parse` the model keeps the rejection of control bytes and of a
missing scheme. The new request has no header and the background context. -/
def NewRequest (method url : GoString) (body : Bytes) : Except GoError Request :=
  if !validMethod method then .error (.foreign (str "net/http: invalid method"))
  else if containsCTLByte url then
    .error (.foreign (str "net/url: invalid control character in URL"))
  else if !schemeOK url then .error (.foreign (str "missing protocol scheme"))
  else .ok { Method := method, URL := url, Header := [], Body := body, Timeout := none }

/-- `Request.SetBasicAuth`. -/
def Request.SetBasicAuth (r : Request) (username password : GoString) : Request :=
  { r with Header := r.Header.Set (str "Authorization")
                       (str "Basic " ++ basicAuth username password) }

/-- `Request.WithContext` for a context made by `context.WithTimeout`. -/
def Request.WithTimeout (r : Request) (d : Int) : Request := { r with Timeout := some d }

/-- An `http.Response`: status text (`"200 OK"`), status code and the bytes its
body delivers when read to the end. -/
structure Response where
  Status : GoString
  StatusCode : Int
  Body : Bytes
deriving DecidableEq, Repr

/-- The round trip of an `*http.Client`: method `Do`. -/
abbrev HttpClient := Request → Except GoError Response

/-! ## `bufio.Scanner` with the default split function -/

/-- `bytes.IndexByte`. -/
def indexByte : Bytes → UInt8 → Option Nat
  | [], _ => none
  | b :: bs, c => if b = c then some 0 else (indexByte bs c).map (· + 1)

/-- Function `dropCR` of `bufio`: drop one trailing carriage return. -/
def dropCR (data : Bytes) : Bytes :=
  if data.length > 0 ∧ data.getLast? = some 13 then data.take (data.length - 1) else data

/-- `bufio.ScanLines`: the advance and the token (`none` for a nil token). -/
def ScanLines (data : Bytes) (atEOF : Bool) : Nat × Option Bytes :=
  if atEOF ∧ data.length = 0 then (0, none)
  else
    match indexByte data 10 with
    | some i => (i + 1, some (dropCR (data.take i)))
    | none => if atEOF then (data.length, some (dropCR data)) else (0, none)

/-- The first `Scanner.Scan()` on a fresh scanner over a reader that delivers
`data` and then end of file, followed by `Scanner.Text()`: the split function
runs on the buffered data, and once more at end of file when it asked for more
data. `none` is `Scan() == false`. The data is shorter than the scanner's
buffer, so no token is too long. -/
def scanFirst (data : Bytes) : Option GoString :=
  match (ScanLines data false).2 with
  | some token => some token
  | none => (ScanLines data true).2

/-- `io.LimitReader(r, n)` over a body: its first `n` bytes. -/
def LimitReader (body : Bytes) (n : Nat) : Bytes := body.take n

/-! ## The write client -/

/-- What the program does to the outside, in order. -/
inductive Event where
  | marshal (samples : List TimeSeries)
  | httpDo (req : Request)
  | bodyClosed
  | println (line : GoString)
deriving DecidableEq, Repr

/-- A value together with the events of computing it. -/
structure Ran (α : Type) where
  val : α
  events : List Event

/-- Source: `type Client struct`. -/
structure Client where
  client : HttpClient
  id : GoString
  key : GoString

/-- Lines 92 to 96 of the source: the diagnostic line read from a body. -/
def diagnosticLine (body : Bytes) : GoString :=
  match scanFirst (LimitReader body maxErrMsgLen) with
  | some text => text
  | none => []

/-- The message of `errors.Errorf("server returned HTTP status %s: %s", status, line)`. -/
def statusMessage (status line : GoString) : GoString :=
  str "server returned HTTP status " ++ status ++ str ": " ++ line

/-- Lines 66 to 82 of the source: the request `Store` builds and passes to
`c.client.Do`. -/
def Client.buildRequest (c : Client) (req : Bytes) : Except GoError Request :=
  match NewRequest (str "POST") pushURL req with
  | .error err => .error err
  | .ok httpReq =>
    let httpReq := { httpReq with Header := httpReq.Header.Add (str "Content-Encoding") (str "snappy") }
    let httpReq := { httpReq with Header := httpReq.Header.Set (str "Content-Type") (str "application/x-protobuf") }
    let httpReq := { httpReq with Header := httpReq.Header.Set (str "User-Agent") userAgent }
    let httpReq := { httpReq with Header := httpReq.Header.Set (str "X-Prometheus-Remote-Write-Version") (str "0.1.0") }
    let httpReq := httpReq.SetBasicAuth c.id c.key
    .ok (httpReq.WithTimeout (Second * 15))

/-- Source: `Client.Store`. The value is the returned `error`; the events are
the call of the transport and the deferred drain-and-close of the body. -/
def Client.Store (c : Client) (req : Bytes) : Ran (Option GoError) :=
  match c.buildRequest req with
  | .error err => ⟨some err, []⟩
  | .ok httpReq =>
    match c.client httpReq with
    | .error err => ⟨some err, [.httpDo httpReq]⟩
    | .ok httpResp =>
      let err : Option GoError :=
        if httpResp.StatusCode.tdiv 100 ≠ 2 then
          let line := diagnosticLine httpResp.Body
          some (.fundamental (statusMessage httpResp.Status line))
        else none
      if httpResp.StatusCode.tdiv 100 = 5 then
        ⟨err, [.httpDo httpReq, .bodyClosed]⟩
      else
        ⟨err, [.httpDo httpReq, .bodyClosed]⟩

/-! ## The command -/

/-- Source: `checkSet`. -/
def checkSet (s : GoString) : Bool :=
  if s = [] then false
  else true

/-- What `main` is run with: the clock readings, the encoding libraries and
`http.DefaultClient`. -/
structure Env where
  now1 : Time
  now2 : Time
  lib : Codec
  DefaultClient : HttpClient

/-- Source: `main`, after `flag.Parse()` has stored the two flag values. The
value is the exit status of the process. -/
def main (env : Env) (id key : GoString) : Ran Nat :=
  if !checkSet id then
    ⟨1, [.println (str "error: -instance.id not set")]⟩
  else if !checkSet key then
    ⟨1, [.println (str "error: -api.key not set")]⟩
  else
    let cli : Client := { client := env.DefaultClient, id := id, key := key }
    let samples := buildExampleWriteRequest env.now1 env.now2
    match marshalWriteRequest env.lib samples with
    | .error err => ⟨1, [.marshal samples, .println err.Error]⟩
    | .ok req =>
      let sent := cli.Store req
      match sent.val with
      | some err => ⟨1, .marshal samples :: sent.events ++ [.println err.Error]⟩
      | none => ⟨0, .marshal samples :: sent.events⟩

/-! ## The libraries: generated `prompb` code and `golang/snappy`

The program is built with the marshalling code generated by gogo-protobuf for
the `prompb` messages and with `golang/snappy`. Both are modelled here as an
instance of `Codec`: the serializer writes the protobuf wire format of the
four messages as the generated `Marshal` methods do (a field that compares
equal to its zero value is left out), `snappyEncode` is `snappy.Encode` with
the portable `encodeBlock`, and the decoders read the two formats back. A
source too long for `snappy.Encode` (about `2^32` bytes, where it panics) is
outside the model.
-/

/-- Base-128 varint, least significant group first; `fuel` bounds the number
of continuation bytes. -/
def putUvarint : Nat → Nat → Bytes
  | 0, n => [UInt8.ofNat n]
  | fuel + 1, n =>
    if n < 128 then [UInt8.ofNat n] else UInt8.ofNat (n % 128 + 128) :: putUvarint fuel (n / 128)

/-- The varint of a number. -/
def uvarint (n : Nat) : Bytes := putUvarint n n

/-- Little-endian bytes of a value, `k` of them. -/
def putLE : Nat → Nat → Bytes
  | 0, _ => []
  | k + 1, n => UInt8.ofNat (n % 256) :: putLE k (n / 256)

/-- The value of a field on the wire. -/
inductive FieldValue where
  | varint (n : Nat)
  | fixed64 (n : Nat)
  | bytes (content : Bytes)
deriving DecidableEq, Repr

/-- A field on the wire: its number and its value. -/
abbrev Field := Nat × FieldValue

/-- Wire form of a field: the key (number and wire type), then a varint, eight
little-endian bytes, or a length and that many bytes. -/
def encodeField : Field → Bytes
  | (num, .varint n) => UInt8.ofNat (num * 8) :: uvarint n
  | (num, .fixed64 n) => UInt8.ofNat (num * 8 + 1) :: putLE 8 n
  | (num, .bytes content) => UInt8.ofNat (num * 8 + 2) :: (uvarint content.length ++ content)

/-- Wire form of a message: its fields one after the other. -/
def encodeFields (fs : List Field) : Bytes := (fs.map encodeField).flatten

/-- Fields of a `Label`: name as field 1 and value as field 2, each left out
when empty. -/
def labelFields (l : Label) : List Field :=
  (if l.Name = [] then [] else [(1, .bytes l.Name)]) ++
  (if l.Value = [] then [] else [(2, .bytes l.Value)])

/-- Wire form of a `Label`. -/
def encodeLabel (l : Label) : Bytes := encodeFields (labelFields l)

/-- Fields of a `Sample`: field 1 is the double as fixed64, left out when the
value compares equal to zero; field 2 is the timestamp as a varint of its
`uint64` bits, left out when zero. -/
def sampleFields (s : Sample) : List Field :=
  (if s.Value.bits % 2 ^ 63 = 0 then [] else [(1, .fixed64 s.Value.bits)]) ++
  (if s.Timestamp = 0 then [] else [(2, .varint (s.Timestamp % 2 ^ 64).toNat)])

/-- Wire form of a `Sample`. -/
def encodeSample (s : Sample) : Bytes := encodeFields (sampleFields s)

/-- Fields of a `TimeSeries`: the labels as field 1, then the samples as field 2. -/
def timeSeriesFields (ts : TimeSeries) : List Field :=
  (ts.Labels.map fun l => (1, .bytes (encodeLabel l))) ++
  (ts.Samples.map fun s => (2, .bytes (encodeSample s)))

/-- Wire form of a `TimeSeries`. -/
def encodeTimeSeries (ts : TimeSeries) : Bytes := encodeFields (timeSeriesFields ts)

/-- Fields of a `WriteRequest`: the series as field 1. -/
def writeRequestFields (r : WriteRequest) : List Field :=
  r.Timeseries.map fun ts => (1, .bytes (encodeTimeSeries ts))

/-- Wire form of a `WriteRequest`. -/
def encodeWriteRequest (r : WriteRequest) : Bytes := encodeFields (writeRequestFields r)

/-- Read a varint: the value and the rest of the input. -/
def readUvarint : Bytes → Option (Nat × Bytes)
  | [] => none
  | b :: bs =>
    if b < 128 then some (b.toNat, bs)
    else
      match readUvarint bs with
      | some (v, rest) => some (b.toNat - 128 + 128 * v, rest)
      | none => none

/-- Read `k` little-endian bytes. -/
def readLE : Nat → Bytes → Option (Nat × Bytes)
  | 0, bs => some (0, bs)
  | _ + 1, [] => none
  | k + 1, b :: bs =>
    match readLE k bs with
    | some (v, rest) => some (b.toNat + 256 * v, rest)
    | none => none

/-- Split a message into its fields, in order. -/
def readFields : Nat → Bytes → Option (List Field)
  | _, [] => some []
  | 0, _ :: _ => none
  | fuel + 1, input =>
    match readUvarint input with
    | none => none
    | some (key, rest) =>
      if key % 8 = 0 then
        match readUvarint rest with
        | none => none
        | some (v, rest) => (readFields fuel rest).map ((key / 8, .varint v) :: ·)
      else if key % 8 = 1 then
        match readLE 8 rest with
        | none => none
        | some (v, rest) => (readFields fuel rest).map ((key / 8, .fixed64 v) :: ·)
      else if key % 8 = 2 then
        match readUvarint rest with
        | none => none
        | some (n, rest) =>
          if rest.length < n then none
          else (readFields fuel (rest.drop n)).map ((key / 8, .bytes (rest.take n)) :: ·)
      else none

/-- The fields of a message. -/
def fieldsOf (input : Bytes) : Option (List Field) :=
  readFields input.length input

/-- A `Label` from its fields; a later field replaces an earlier one. -/
def labelOfFields (fs : List Field) : Label :=
  fs.foldl (fun l f =>
    match f with
    | (1, .bytes s) => { l with Name := s }
    | (2, .bytes s) => { l with Value := s }
    | _ => l) ⟨[], []⟩

/-- Read a `Label`. -/
def decodeLabel (input : Bytes) : Option Label :=
  (fieldsOf input).map labelOfFields

/-- An `int64` from its `uint64` bits. -/
def toInt64 (n : Nat) : Int := if n < 2 ^ 63 then n else (n : Int) - 2 ^ 64

/-- A `Sample` from its fields. -/
def sampleOfFields (fs : List Field) : Sample :=
  fs.foldl (fun s f =>
    match f with
    | (1, .fixed64 v) => { s with Value := ⟨v⟩ }
    | (2, .varint v) => { s with Timestamp := toInt64 (v % 2 ^ 64) }
    | _ => s) ⟨⟨0⟩, 0⟩

/-- Read a `Sample`. -/
def decodeSample (input : Bytes) : Option Sample :=
  (fieldsOf input).map sampleOfFields

/-- One field of a `TimeSeries` added to what has been read. -/
def addSeriesField (acc : Option TimeSeries) (f : Field) : Option TimeSeries :=
  match acc, f with
  | some ts, (1, .bytes b) =>
    (decodeLabel b).map fun l => { ts with Labels := ts.Labels ++ [l] }
  | some ts, (2, .bytes b) =>
    (decodeSample b).map fun s => { ts with Samples := ts.Samples ++ [s] }
  | acc, _ => acc

/-- Read a `TimeSeries`. -/
def decodeTimeSeries (input : Bytes) : Option TimeSeries :=
  match fieldsOf input with
  | none => none
  | some fs => fs.foldl addSeriesField (some ⟨[], []⟩)

/-- One field of a `WriteRequest` added to what has been read. -/
def addRequestField (acc : Option WriteRequest) (f : Field) : Option WriteRequest :=
  match acc, f with
  | some r, (1, .bytes b) =>
    (decodeTimeSeries b).map fun ts => { r with Timeseries := r.Timeseries ++ [ts] }
  | acc, _ => acc

/-- Read a `WriteRequest`. -/
def decodeWireRequest (input : Bytes) : Option WriteRequest :=
  match fieldsOf input with
  | none => none
  | some fs => fs.foldl addRequestField (some ⟨[]⟩)

/-- Function `emitLiteral` of `golang/snappy`: the tag with the length, then
the bytes themselves; for 1 to 65536 bytes. -/
def emitLiteral (lit : Bytes) : Bytes :=
  let n := lit.length - 1
  if n < 60 then UInt8.ofNat (n * 4) :: lit
  else if n < 256 then 240 :: UInt8.ofNat n :: lit
  else 244 :: UInt8.ofNat (n % 256) :: UInt8.ofNat (n / 256) :: lit

/-- The end of `emitCopy`: a copy of 60 bytes when more than 64 are left, then
the rest as a three-byte copy, or as a two-byte copy when it is shorter than 12
bytes and less than 2048 bytes back. -/
def emitCopyTail (offset length : Nat) : Bytes :=
  let head : Bytes :=
    if length > 64 then [238, UInt8.ofNat offset, UInt8.ofNat (offset / 256)] else []
  let length := if length > 64 then length - 60 else length
  if length ≥ 12 ∨ offset ≥ 2048 then
    head ++ [UInt8.ofNat ((length - 1) * 4 + 2), UInt8.ofNat offset, UInt8.ofNat (offset / 256)]
  else
    head ++ [UInt8.ofNat (offset / 256 * 32 + (length - 4) * 4 + 1), UInt8.ofNat offset]

/-- Function `emitCopy` of `golang/snappy`: copies of 64 bytes while at least 68
bytes are left, then the end. The first argument bounds the iterations. -/
def emitCopy : Nat → Nat → Nat → Bytes
  | 0, offset, length => emitCopyTail offset length
  | fuel + 1, offset, length =>
    if length ≥ 68 then
      254 :: UInt8.ofNat offset :: UInt8.ofNat (offset / 256) :: emitCopy fuel offset (length - 64)
    else emitCopyTail offset length

/-- Function `load32` of `golang/snappy`: four bytes, little-endian. -/
def load32 (b : Bytes) (i : Nat) : Nat :=
  (b.getD i 0).toNat + 256 * (b.getD (i + 1) 0).toNat + 65536 * (b.getD (i + 2) 0).toNat
    + 16777216 * (b.getD (i + 3) 0).toNat

/-- Function `load64` of `golang/snappy`: eight bytes, little-endian. -/
def load64 (b : Bytes) (i : Nat) : Nat :=
  load32 b i + 4294967296 * load32 b (i + 4)

/-- Function `hash` of `golang/snappy`, on `uint32`. -/
def hash (u shift : Nat) : Nat := u * 0x1e35a7bd % 2 ^ 32 / 2 ^ shift

/-- The loop of `encodeBlock` that sizes the hash table: the shift goes down
by one each time the table size doubles. -/
def tableShift : Nat → Nat → Nat → Nat → Nat
  | 0, _, shift, _ => shift
  | fuel + 1, tableSize, shift, len =>
    if tableSize < 16384 ∧ tableSize < len then tableShift fuel (tableSize * 2) (shift - 1) len
    else shift

/-- The inlined `extendMatch` of `encodeBlock`: advance while the bytes at `i`
and at `s` agree and `s` is inside the block. -/
def extendMatch (src : Bytes) : Nat → Nat → Nat → Nat
  | 0, _, s => s
  | fuel + 1, i, s =>
    if s < src.length ∧ src.getD i 0 = src.getD s 0 then extendMatch src fuel (i + 1) (s + 1)
    else s

/-- Source constant `inputMargin` of `golang/snappy`. -/
def inputMargin : Nat := 15

/-- Source constant `minNonLiteralBlockSize` of `golang/snappy`. -/
def minNonLiteralBlockSize : Nat := 1 + 1 + inputMargin

/-- Source constant `maxBlockSize` of `golang/snappy`. -/
def maxBlockSize : Nat := 65536

/-- Label `emitRemainder` of `encodeBlock`: what is left is one literal. -/
def emitRemainder (src : Bytes) (nextEmit : Nat) : Bytes :=
  if nextEmit < src.length then emitLiteral (src.drop nextEmit) else []

/-- One entry of the hash table replaced. -/
def setEntry (table : Nat → Nat) (slot value : Nat) : Nat → Nat :=
  fun h => if h = slot then value else table h

/-- Where `encodeBlock` stands: scanning for a four-byte match, or at a match
that is to be emitted as a copy. -/
inductive BlockState where
  | scan (nextS skip nextHash nextEmit : Nat)
  | copy (s candidate : Nat)

/-- The loops of `encodeBlock`, one step per unit of fuel. In state `scan` it
is the inner loop that looks the next position up in the hash table; in state
`copy` it is the loop that extends a match, emits the copy and looks at the
position right after it. -/
def encodeBlockLoop (src : Bytes) (shift : Nat) : Nat → (Nat → Nat) → BlockState → Bytes
  | 0, _, _ => []
  | fuel + 1, table, .scan nextS skip nextHash nextEmit =>
    let s := nextS
    let bytesBetweenHashLookups := skip / 32
    let nextS := s + bytesBetweenHashLookups
    let skip := skip + bytesBetweenHashLookups
    if nextS > src.length - inputMargin then emitRemainder src nextEmit
    else
      let candidate := table (nextHash % 16384)
      let table := setEntry table (nextHash % 16384) (s % 65536)
      let nextHash := hash (load32 src nextS) shift
      if load32 src s = load32 src candidate then
        emitLiteral ((src.drop nextEmit).take (s - nextEmit))
          ++ encodeBlockLoop src shift fuel table (.copy s candidate)
      else encodeBlockLoop src shift fuel table (.scan nextS skip nextHash nextEmit)
  | fuel + 1, table, .copy base candidate =>
    let s := extendMatch src src.length (candidate + 4) (base + 4)
    emitCopy (s - base) (base - candidate) (s - base) ++
      if s ≥ src.length - inputMargin then emitRemainder src s
      else
        let x := load64 src (s - 1)
        let prevHash := hash (x % 4294967296) shift
        let table := setEntry table (prevHash % 16384) ((s - 1) % 65536)
        let currHash := hash (x / 256 % 4294967296) shift
        let candidate := table (currHash % 16384)
        let table := setEntry table (currHash % 16384) (s % 65536)
        if x / 256 % 4294967296 ≠ load32 src candidate then
          encodeBlockLoop src shift fuel table
            (.scan (s + 1) 32 (hash (x / 65536 % 4294967296) shift) s)
        else encodeBlockLoop src shift fuel table (.copy s candidate)

/-- Function `encodeBlock` of `golang/snappy` (the portable version), for a
block of 17 to 65536 bytes: the table starts zeroed, the scan at position 1. -/
def encodeBlock (src : Bytes) : Bytes :=
  let shift := tableShift 6 256 24 src.length
  encodeBlockLoop src shift (2 * src.length + 1) (fun _ => 0)
    (.scan 1 32 (hash (load32 src 1) shift) 0)

/-- The loop of `snappy.Encode` over the blocks of at most 65536 bytes: a
block shorter than 17 bytes is one literal. -/
def encodeBlocks : Nat → Bytes → Bytes
  | _, [] => []
  | 0, _ :: _ => []
  | fuel + 1, src =>
    let p := src.take maxBlockSize
    (if p.length < minNonLiteralBlockSize then emitLiteral p else encodeBlock p)
      ++ encodeBlocks fuel (src.drop maxBlockSize)

/-- `snappy.Encode(nil, src)` of `golang/snappy`: the varint of the length,
then the blocks. -/
def snappyEncode (src : Bytes) : Bytes :=
  uvarint src.length ++ encodeBlocks src.length src

/-- Copy `n` bytes that start `offset` bytes before the end of the output,
one at a time, so that a copy may overlap what it writes. -/
def copyBack : Nat → Nat → Bytes → Option Bytes
  | 0, _, out => some out
  | n + 1, offset, out =>
    if offset = 0 ∨ out.length < offset then none
    else
      match out[out.length - offset]? with
      | none => none
      | some b => copyBack n offset (out ++ [b])

/-- The elements of a snappy block, decoded onto the output so far. -/
def decodeElements : Nat → Bytes → Bytes → Option Bytes
  | _, [], out => some out
  | 0, _ :: _, _ => none
  | fuel + 1, tag :: rest, out =>
    let t := tag.toNat
    if t % 4 = 0 then
      let x := t / 4
      let k := if x < 60 then 0 else x - 59
      match readLE k rest with
      | none => none
      | some (v, rest) =>
        let n := if x < 60 then x + 1 else v + 1
        if rest.length < n then none
        else decodeElements fuel (rest.drop n) (out ++ rest.take n)
    else if t % 4 = 1 then
      match rest with
      | [] => none
      | b :: rest =>
        match copyBack (4 + t / 4 % 8) (t / 32 * 256 + b.toNat) out with
        | none => none
        | some out => decodeElements fuel rest out
    else
      match readLE (if t % 4 = 2 then 2 else 4) rest with
      | none => none
      | some (offset, rest) =>
        match copyBack (1 + t / 4) offset out with
        | none => none
        | some out => decodeElements fuel rest out

/-- A snappy block decoder: the length, the elements, and the check that the
output has the announced length. -/
def blockDecode (src : Bytes) : Option Bytes :=
  match readUvarint src with
  | none => none
  | some (n, rest) =>
    match decodeElements rest.length rest [] with
    | none => none
    | some out => if out.length = n then some out else none

/-- The libraries of the program as an instance of `Codec`. -/
def wireCodec : Codec where
  protoMarshal r := .ok (encodeWriteRequest r)
  snappyEncode := snappyEncode
  snappyDecode payload :=
    match blockDecode payload with
    | some data => .ok data
    | none => .error (.foreign (str "snappy: corrupt input"))
  protoUnmarshal data :=
    match decodeWireRequest data with
    | some r => .ok r
    | none => .error (.foreign (str "proto: illegal wire format"))

/-! ## Definitions used to state the properties -/

/-- A field the wire format carries without loss: a number below 16, so that
the key is one byte, and a fixed64 value below `2^64`. -/
def Field.Plain : Field → Prop
  | (num, .fixed64 n) => num < 16 ∧ n < 2 ^ 64
  | (num, _) => num < 16

/-- A sample the wire format carries without loss: the value is a 64-bit
pattern other than negative zero and the timestamp is an `int64`. -/
def Sample.Exact (s : Sample) : Prop :=
  s.Value.bits < 2 ^ 64 ∧ s.Value.bits ≠ 2 ^ 63 ∧ -(2 ^ 63) ≤ s.Timestamp ∧ s.Timestamp < 2 ^ 63

/-- A request all of whose samples the wire format carries without loss. -/
def WriteRequest.Exact (r : WriteRequest) : Prop :=
  ∀ ts ∈ r.Timeseries, ∀ s ∈ ts.Samples, s.Exact

instance (s : Sample) : Decidable s.Exact := by
  unfold Sample.Exact
  exact inferInstance

instance (r : WriteRequest) : Decidable r.Exact := by
  unfold WriteRequest.Exact
  exact inferInstance

/-- A series with one sample whose value is negative zero (sign bit only) and
whose timestamp is 5. -/
def negativeZeroSeries : List TimeSeries :=
  [ { Labels := [], Samples := [ { Value := ⟨0x8000000000000000⟩, Timestamp := 5 } ] } ]

/-- The elements `enc` turn the output `pre` into the output `post`, whatever
follows them, and use up at most one unit of fuel per byte. -/
def Decodes (enc pre post : Bytes) : Prop :=
  ∃ k, k ≤ enc.length ∧
    ∀ rest fuel, decodeElements (fuel + k) (enc ++ rest) pre = decodeElements fuel rest post

/-- The position up to which a state of `encodeBlock` has emitted the block. -/
def BlockState.emitted : BlockState → Nat
  | .scan _ _ _ nextEmit => nextEmit
  | .copy s _ => s

/-- A bound on the steps `encodeBlock` still takes from a state. -/
def BlockState.steps (len : Nat) : BlockState → Nat
  | .scan nextS _ _ _ => 2 * (len - nextS) + 2
  | .copy s _ => 2 * (len - s) + 1

/-- What holds of the states `encodeBlock` goes through: the table holds
earlier positions only, a scan has something left to emit, and a copy starts
at a four-byte match. -/
def BlockState.Sound (src : Bytes) (table : Nat → Nat) : BlockState → Prop
  | .scan nextS skip _ nextEmit =>
    nextEmit < nextS ∧ nextS ≤ src.length ∧ 32 ≤ skip ∧ ∀ h, table h < nextS
  | .copy s candidate =>
    candidate < s ∧ s + 4 ≤ src.length ∧ load32 src s = load32 src candidate ∧ ∀ h, table h ≤ s

/-- The four fixed headers `Store` sets, in the order it sets them. -/
def fixedHeaders : Header :=
  [ (str "Content-Encoding", [str "snappy"]),
    (str "Content-Type", [str "application/x-protobuf"]),
    (str "User-Agent", [str "CustomClient/1.0.0"]),
    (str "X-Prometheus-Remote-Write-Version", [str "0.1.0"]) ]

/-- The requests a list of events hands to the transport, in order. -/
def transportCalls : List Event → List Request
  | [] => []
  | .httpDo r :: es => r :: transportCalls es
  | _ :: es => transportCalls es

/-- Strip one trailing carriage return, in the words of the specification. -/
def stripTrailingCR (line : Bytes) : Bytes :=
  if line.getLast? = some 13 then line.dropLast else line

/-- The first line of a text, in the words of the specification: the text
before the first newline, with a trailing carriage return stripped. -/
def firstLineOf (text : Bytes) : Bytes :=
  stripTrailingCR (text.takeWhile fun b => b != 10)

/-- A body of 257 bytes without a newline whose 256th byte is a carriage
return: 255 letters `a`, a carriage return and a letter `b`. -/
def crBody : Bytes := List.replicate 255 97 ++ [13, 98]

/-- An environment for a run of `main`: two clock readings within the same
second, the libraries of the program and a transport that answers `200 OK`. -/
def sampleEnv : Env where
  now1 := ⟨1600000000500000000⟩
  now2 := ⟨1600000000500001000⟩
  lib := wireCodec
  DefaultClient := fun _ => .ok ⟨str "200 OK", 200, []⟩

/-- A transport that answers every request with the same response. -/
def answering (resp : Response) : HttpClient := fun _ => .ok resp

/-- A transport that fails on every request with the same error. -/
def failing (err : GoError) : HttpClient := fun _ => .error err

/-! ## The request handed to the transport -/

theorem fixedHeaders_built :
    Header.Set (Header.Set (Header.Set (Header.Add [] (str "Content-Encoding") (str "snappy"))
      (str "Content-Type") (str "application/x-protobuf")) (str "User-Agent") userAgent)
      (str "X-Prometheus-Remote-Write-Version") (str "0.1.0") = fixedHeaders := by
  decide

theorem set_authorization (v : GoString) :
    Header.Set fixedHeaders (str "Authorization") v
      = fixedHeaders ++ [(str "Authorization", [v])] := by
  have hk : canonicalMIMEHeaderKey (str "Authorization") = str "Authorization" := by decide
  have e1 : str "Content-Encoding" ≠ str "Authorization" := by decide
  have e2 : str "Content-Type" ≠ str "Authorization" := by decide
  have e3 : str "User-Agent" ≠ str "Authorization" := by decide
  have e4 : str "X-Prometheus-Remote-Write-Version" ≠ str "Authorization" := by decide
  unfold Header.Set
  rw [hk]
  simp [fixedHeaders, Header.put, e1, e2, e3, e4]

theorem newRequest_push (req : Bytes) :
    NewRequest (str "POST") pushURL req
      = .ok { Method := str "POST", URL := pushURL, Header := [], Body := req, Timeout := none } := by
  have h1 : validMethod (str "POST") = true := by decide
  have h2 : containsCTLByte pushURL = false := by decide
  have h3 : schemeOK pushURL = true := by decide
  simp [NewRequest, h1, h2, h3]

theorem buildRequest_eq (c : Client) (req : Bytes) :
    c.buildRequest req = .ok
      { Method := str "POST", URL := pushURL,
        Header := fixedHeaders ++ [(str "Authorization", [str "Basic " ++ basicAuth c.id c.key])],
        Body := req, Timeout := some 15000000000 } := by
  simp only [Client.buildRequest, newRequest_push, Request.SetBasicAuth, Request.WithTimeout,
    fixedHeaders_built, set_authorization]
  rfl

/-! ## Classification of the response -/

theorem store_of_response (c : Client) (req : Bytes) (httpReq : Request) (resp : Response)
    (hreq : c.buildRequest req = .ok httpReq) (hdo : c.client httpReq = .ok resp) :
    c.Store req =
      ⟨if resp.StatusCode.tdiv 100 ≠ 2 then
          some (.fundamental (statusMessage resp.Status (diagnosticLine resp.Body)))
        else none,
       [.httpDo httpReq, .bodyClosed]⟩ := by
  simp [Client.Store, hreq, hdo]

theorem store_of_failure (c : Client) (req : Bytes) (httpReq : Request) (err : GoError)
    (hreq : c.buildRequest req = .ok httpReq) (hdo : c.client httpReq = .error err) :
    c.Store req = ⟨some err, [.httpDo httpReq]⟩ := by
  simp [Client.Store, hreq, hdo]

theorem tdiv_hundred_of_2xx (n : Int) (h1 : 200 ≤ n) (h2 : n ≤ 299) : n.tdiv 100 = 2 := by
  have h0 : (0 : Int) ≤ n := by omega
  rw [Int.tdiv_eq_ediv h0 (by decide)]
  omega


/-! ## The diagnostic line -/

theorem indexByte_none (d : Bytes) (c : UInt8) (h : indexByte d c = none) :
    d.takeWhile (fun b => b != c) = d := by
  induction d with
  | nil => rfl
  | cons b bs ih =>
    unfold indexByte at h
    by_cases hb : b = c
    · simp [hb] at h
    · simp only [hb, if_false, Option.map_eq_none'] at h
      have hbc : (b != c) = true := by simp [hb]
      simp [List.takeWhile, hbc, ih h]

theorem indexByte_some (d : Bytes) (c : UInt8) (i : Nat) (h : indexByte d c = some i) :
    d.take i = d.takeWhile (fun b => b != c) := by
  induction d generalizing i with
  | nil => simp [indexByte] at h
  | cons b bs ih =>
    unfold indexByte at h
    by_cases hb : b = c
    · simp [hb] at h
      simp [← h, hb, List.takeWhile]
    · simp only [hb, if_false, Option.map_eq_some'] at h
      obtain ⟨j, hj, rfl⟩ := h
      have hbc : (b != c) = true := by simp [hb]
      simp [List.takeWhile, hbc, ih j hj]

theorem dropCR_eq (d : Bytes) : dropCR d = stripTrailingCR d := by
  unfold dropCR stripTrailingCR
  by_cases h : d.getLast? = some 13
  · have hlen : d.length > 0 := by
      cases d with
      | nil => simp at h
      | cons _ _ => simp
    simp [h, hlen, List.dropLast_eq_take]
  · simp [h]

theorem diagnosticLine_eq (body : Bytes) :
    diagnosticLine body = firstLineOf (body.take 256) := by
  unfold diagnosticLine LimitReader maxErrMsgLen scanFirst ScanLines firstLineOf
  generalize body.take 256 = d
  cases hidx : indexByte d 10 with
  | some i => simp [dropCR_eq, indexByte_some d 10 i hidx]
  | none =>
    have htw := indexByte_none d 10 hidx
    cases d with
    | nil => simp [stripTrailingCR]
    | cons b bs => simp [dropCR_eq, htw]

theorem stripTrailingCR_initial (l : Bytes) : stripTrailingCR l <+: l := by
  unfold stripTrailingCR
  split
  · exact List.dropLast_prefix l
  · exact List.prefix_refl l

theorem firstLineOf_initial (l : Bytes) : firstLineOf l <+: l :=
  (stripTrailingCR_initial _).trans (List.takeWhile_prefix _)

theorem diagnosticLine_initial (body : Bytes) : diagnosticLine body <+: body := by
  rw [diagnosticLine_eq]
  exact (firstLineOf_initial _).trans (List.take_prefix _ _)

theorem diagnosticLine_length (body : Bytes) : (diagnosticLine body).length ≤ 256 := by
  rw [diagnosticLine_eq]
  calc (firstLineOf (body.take 256)).length ≤ (body.take 256).length := (firstLineOf_initial _).length_le
    _ ≤ 256 := by simp

theorem diagnosticLine_long (body : Bytes) (hlen : 256 < body.length)
    (hnl : (10 : UInt8) ∉ body.take 256) :
    (body[255]? ≠ some 13 → diagnosticLine body = body.take 256) ∧
    (body[255]? = some 13 → diagnosticLine body = body.take 255) := by
  rw [diagnosticLine_eq]
  unfold firstLineOf
  have htw : (body.take 256).takeWhile (fun b => b != 10) = body.take 256 := by
    rw [List.takeWhile_eq_self_iff]
    intro b hb
    simp only [bne_iff_ne, ne_eq]
    intro h; exact hnl (h ▸ hb)
  have hlast : (body.take 256).getLast? = body[255]? := by
    rw [List.getLast?_eq_getElem?]
    simp [List.length_take, Nat.min_eq_left (Nat.le_of_lt hlen), List.getElem?_take]
  rw [htw]
  unfold stripTrailingCR
  rw [hlast]
  constructor
  · intro h; simp [h]
  · intro h
    simp [h, List.dropLast_eq_take, List.length_take, Nat.min_eq_left (Nat.le_of_lt hlen), List.take_take]

/-! ## Properties of `Client.Store` -/

/-- C2: whenever the transport answers the request `Store` built with a
response whose status code lies in 200..299, `Store` returns no error, whatever
the payload, the credentials, the status text and the body are. -/
theorem store_2xx_no_error (c : Client) (req : Bytes) (resp : Response)
    (hdo : ∃ httpReq, c.buildRequest req = .ok httpReq ∧ c.client httpReq = .ok resp)
    (hlo : 200 ≤ resp.StatusCode) (hhi : resp.StatusCode ≤ 299) :
    (c.Store req).val = none := by
  obtain ⟨httpReq, hreq, hresp⟩ := hdo
  rw [store_of_response c req httpReq resp hreq hresp]
  simp [tdiv_hundred_of_2xx resp.StatusCode hlo hhi]

theorem store_2xx_no_error_witness :
    (Client.Store ⟨answering ⟨str "204 No Content", 204, str "ignored"⟩, str "12345", str "secret"⟩
      [1, 2, 3]).val = none :=
  store_2xx_no_error _ _ ⟨str "204 No Content", 204, str "ignored"⟩
    ⟨_, buildRequest_eq _ _, rfl⟩ (by decide) (by decide)

/-- C3: whenever the transport answers with a response whose status code is not
2xx (the truncated quotient of the code by 100 is not 2), `Store` returns a
non-nil error whose message is `server returned HTTP status `, the status text,
`: ` and the diagnostic line of the body; this covers every 4xx code, which is
therefore never reported as success. -/
theorem store_non2xx_error (c : Client) (req : Bytes) (resp : Response)
    (hdo : ∃ httpReq, c.buildRequest req = .ok httpReq ∧ c.client httpReq = .ok resp) :
    (resp.StatusCode.tdiv 100 ≠ 2 →
      ∃ err, (c.Store req).val = some err ∧
        err.Error = str "server returned HTTP status " ++ resp.Status ++ str ": "
          ++ diagnosticLine resp.Body) ∧
    (400 ≤ resp.StatusCode → resp.StatusCode ≤ 499 →
      ∃ err, (c.Store req).val = some err ∧
        err.Error = str "server returned HTTP status " ++ resp.Status ++ str ": "
          ++ diagnosticLine resp.Body) := by
  obtain ⟨httpReq, hreq, hresp⟩ := hdo
  rw [store_of_response c req httpReq resp hreq hresp]
  have main : resp.StatusCode.tdiv 100 ≠ 2 →
      ∃ err, (if resp.StatusCode.tdiv 100 ≠ 2 then
          some (GoError.fundamental (statusMessage resp.Status (diagnosticLine resp.Body)))
        else none) = some err ∧
        err.Error = str "server returned HTTP status " ++ resp.Status ++ str ": "
          ++ diagnosticLine resp.Body := by
    intro hne
    exact ⟨.fundamental (statusMessage resp.Status (diagnosticLine resp.Body)), by simp [hne],
      by simp [GoError.Error, statusMessage]⟩
  refine ⟨main, fun h4 h5 => main ?_⟩
  have h0 : (0 : Int) ≤ resp.StatusCode := by omega
  rw [Int.tdiv_eq_ediv h0 (by decide)]
  omega

theorem store_non2xx_error_witness :
    (∃ err, (Client.Store ⟨answering ⟨str "401 Unauthorized", 401, str "bad key\nmore"⟩,
        str "12345", str "secret"⟩ [1, 2, 3]).val = some err ∧
      err.Error = str "server returned HTTP status 401 Unauthorized: bad key") :=
  (store_non2xx_error ⟨answering ⟨str "401 Unauthorized", 401, str "bad key\nmore"⟩,
      str "12345", str "secret"⟩ [1, 2, 3] ⟨str "401 Unauthorized", 401, str "bad key\nmore"⟩
    ⟨_, buildRequest_eq _ _, rfl⟩).2 (by decide) (by decide)

theorem transportCalls_store (c : Client) (req : Bytes) (httpReq : Request)
    (hreq : c.buildRequest req = .ok httpReq) :
    transportCalls (c.Store req).events = [httpReq] := by
  cases hdo : c.client httpReq with
  | error err => rw [store_of_failure c req httpReq err hreq hdo]; rfl
  | ok resp => rw [store_of_response c req httpReq resp hreq hdo]; rfl

/-- C4 (amended): for every non-2xx response the error of `Store` embeds a
diagnostic line that is at most `maxErrMsgLen = 256` bytes long, is an initial
segment of the body, equals the first line (text before the first newline, one
trailing carriage return stripped) of the first 256 bytes of the body, and is
empty when the body is empty. A body longer than 256 bytes with no newline in
its first 256 bytes yields its first 256 bytes when the 256th byte is not a
carriage return, and its first 255 bytes when it is. -/
theorem store_diagnostic_line (c : Client) (req : Bytes) (resp : Response)
    (hdo : ∃ httpReq, c.buildRequest req = .ok httpReq ∧ c.client httpReq = .ok resp)
    (hne : resp.StatusCode.tdiv 100 ≠ 2) :
    ∃ line : GoString,
      (c.Store req).val = some (.fundamental
        (str "server returned HTTP status " ++ resp.Status ++ str ": " ++ line)) ∧
      line.length ≤ maxErrMsgLen ∧
      line <+: resp.Body ∧
      line = firstLineOf (resp.Body.take maxErrMsgLen) ∧
      (resp.Body = [] → line = []) ∧
      (256 < resp.Body.length → (10 : UInt8) ∉ resp.Body.take 256 →
        (resp.Body[255]? ≠ some 13 → line = resp.Body.take 256) ∧
        (resp.Body[255]? = some 13 → line = resp.Body.take 255)) := by
  obtain ⟨httpReq, hreq, hresp⟩ := hdo
  refine ⟨diagnosticLine resp.Body, ?_, diagnosticLine_length _, diagnosticLine_initial _,
    diagnosticLine_eq _, ?_, diagnosticLine_long _⟩
  · rw [store_of_response c req httpReq resp hreq hresp]
    simp [hne, statusMessage]
  · intro h
    rw [h]
    rfl

theorem store_diagnostic_line_witness :
    ∃ line : GoString,
      (Client.Store ⟨answering ⟨str "500 Internal Server Error", 500, crBody⟩,
        str "12345", str "secret"⟩ []).val = some (.fundamental
          (str "server returned HTTP status " ++ str "500 Internal Server Error" ++ str ": "
            ++ line)) ∧
      line.length ≤ maxErrMsgLen ∧
      line <+: crBody ∧
      line = firstLineOf (crBody.take maxErrMsgLen) ∧
      line = crBody.take 255 :=
  match store_diagnostic_line ⟨answering ⟨str "500 Internal Server Error", 500, crBody⟩,
      str "12345", str "secret"⟩ [] ⟨str "500 Internal Server Error", 500, crBody⟩
    ⟨_, buildRequest_eq _ _, rfl⟩ (by decide) with
  | ⟨line, hval, hlen, hinit, hfirst, _, hlong⟩ =>
    ⟨line, hval, hlen, hinit, hfirst, (hlong (by decide) (by decide)).2 (by decide)⟩

/-- C4 as stated fails: the body `crBody` is longer than 256 bytes and has no
newline in its first 256 bytes, yet the diagnostic line in the error of `Store`
is its first 255 bytes, not its first 256 bytes. -/
theorem store_diagnostic_line_counterexample :
    256 < crBody.length ∧ (10 : UInt8) ∉ crBody.take 256 ∧
    (Client.Store ⟨answering ⟨str "500 Internal Server Error", 500, crBody⟩,
        str "12345", str "secret"⟩ []).val
      = some (.fundamental (str "server returned HTTP status 500 Internal Server Error: "
          ++ List.replicate 255 97)) ∧
    (Client.Store ⟨answering ⟨str "500 Internal Server Error", 500, crBody⟩,
        str "12345", str "secret"⟩ []).val
      ≠ some (.fundamental (str "server returned HTTP status 500 Internal Server Error: "
          ++ crBody.take 256)) := by
  refine ⟨by decide, by decide, ?_, ?_⟩
  · rw [store_of_response _ _ _ ⟨str "500 Internal Server Error", 500, crBody⟩
      (buildRequest_eq _ _) rfl]
    decide
  · rw [store_of_response _ _ _ ⟨str "500 Internal Server Error", 500, crBody⟩
      (buildRequest_eq _ _) rfl]
    decide

/-- C5 as stated fails: the error `Store` returns for a 503 response and the
one it returns for a 400 response have the same class, the message error of
`errors.Errorf`; they differ in the status text of the message only. -/
theorem store_5xx_same_class :
    (Client.Store ⟨answering ⟨str "503 Service Unavailable", 503, []⟩,
        str "12345", str "secret"⟩ []).val
      = some (.fundamental (str "server returned HTTP status 503 Service Unavailable: ")) ∧
    (Client.Store ⟨answering ⟨str "400 Bad Request", 400, []⟩,
        str "12345", str "secret"⟩ []).val
      = some (.fundamental (str "server returned HTTP status 400 Bad Request: ")) ∧
    (Client.Store ⟨answering ⟨str "503 Service Unavailable", 503, []⟩,
        str "12345", str "secret"⟩ []).val.map GoError.errorClass
      = (Client.Store ⟨answering ⟨str "400 Bad Request", 400, []⟩,
        str "12345", str "secret"⟩ []).val.map GoError.errorClass := by
  rw [store_of_response _ _ _ ⟨str "503 Service Unavailable", 503, []⟩
      (buildRequest_eq _ _) rfl,
    store_of_response _ _ _ ⟨str "400 Bad Request", 400, []⟩ (buildRequest_eq _ _) rfl]
  decide

/-- C5 (amended): `Store` does not distinguish 5xx responses from the other
non-2xx responses. Every non-2xx response, 5xx or not, yields an error of one
and the same class, the message error of `errors.Errorf`, and two non-2xx
responses with the same status text and the same body yield equal errors
whatever their status codes are: the status text in the message is all that
tells a 5xx apart. -/
theorem store_non2xx_uniform (c c' : Client) (req req' : Bytes) (resp resp' : Response)
    (hdo : ∃ httpReq, c.buildRequest req = .ok httpReq ∧ c.client httpReq = .ok resp)
    (hdo' : ∃ httpReq, c'.buildRequest req' = .ok httpReq ∧ c'.client httpReq = .ok resp')
    (hne : resp.StatusCode.tdiv 100 ≠ 2) (hne' : resp'.StatusCode.tdiv 100 ≠ 2) :
    (∃ err, (c.Store req).val = some err ∧ err.errorClass = .pkgErrorsFundamental) ∧
    (∃ err, (c'.Store req').val = some err ∧ err.errorClass = .pkgErrorsFundamental) ∧
    (resp.Status = resp'.Status → resp.Body = resp'.Body →
      (c.Store req).val = (c'.Store req').val) := by
  obtain ⟨httpReq, hreq, hresp⟩ := hdo
  obtain ⟨httpReq', hreq', hresp'⟩ := hdo'
  rw [store_of_response c req httpReq resp hreq hresp,
    store_of_response c' req' httpReq' resp' hreq' hresp']
  rw [if_pos hne, if_pos hne']
  refine ⟨⟨_, rfl, rfl⟩, ⟨_, rfl, rfl⟩, ?_⟩
  intro hs hb
  rw [hs, hb]

theorem store_non2xx_uniform_witness :
    (Client.Store ⟨answering ⟨str "error", 503, str "overloaded"⟩, str "12345", str "secret"⟩
        [1]).val
      = (Client.Store ⟨answering ⟨str "error", 400, str "overloaded"⟩, str "777", str "other"⟩
        [2, 3]).val :=
  (store_non2xx_uniform
    ⟨answering ⟨str "error", 503, str "overloaded"⟩, str "12345", str "secret"⟩
    ⟨answering ⟨str "error", 400, str "overloaded"⟩, str "777", str "other"⟩ [1] [2, 3]
    ⟨str "error", 503, str "overloaded"⟩ ⟨str "error", 400, str "overloaded"⟩
    ⟨_, buildRequest_eq _ _, rfl⟩ ⟨_, buildRequest_eq _ _, rfl⟩
    (by decide) (by decide)).2.2 rfl rfl

/-- C6: for every payload and every client, `Store` hands the transport exactly
one request: a POST to the fixed URL whose body is the payload, whose headers
are `Content-Encoding: snappy`, `Content-Type: application/x-protobuf`,
`User-Agent: CustomClient/1.0.0`, `X-Prometheus-Remote-Write-Version: 0.1.0`
and `Authorization: Basic base64(id:key)`, one value each, and no other
header. -/
theorem store_request_contract (c : Client) (req : Bytes) :
    transportCalls (c.Store req).events =
      [ { Method := str "POST",
          URL := str "https://prometheus-us-central1.grafana.net/api/prom/push",
          Header :=
            [ (str "Content-Encoding", [str "snappy"]),
              (str "Content-Type", [str "application/x-protobuf"]),
              (str "User-Agent", [str "CustomClient/1.0.0"]),
              (str "X-Prometheus-Remote-Write-Version", [str "0.1.0"]),
              (str "Authorization",
                [str "Basic " ++ base64Encode (c.id ++ str ":" ++ c.key)]) ],
          Body := req,
          Timeout := some 15000000000 } ] ∧
    ∀ sent ∈ transportCalls (c.Store req).events, ∀ key : GoString,
      key ≠ str "Content-Encoding" → key ≠ str "Content-Type" → key ≠ str "User-Agent" →
      key ≠ str "X-Prometheus-Remote-Write-Version" → key ≠ str "Authorization" →
      sent.Header.values key = [] := by
  rw [transportCalls_store c req _ (buildRequest_eq c req)]
  refine ⟨rfl, ?_⟩
  intro sent hsent key h1 h2 h3 h4 h5
  rw [List.mem_singleton] at hsent
  subst hsent
  simp [fixedHeaders, Header.values, Ne.symm h1, Ne.symm h2, Ne.symm h3, Ne.symm h4, Ne.symm h5]

theorem store_request_contract_witness :
    transportCalls (Client.Store ⟨answering ⟨str "200 OK", 200, []⟩, str "12345", str "secret"⟩
        [1, 2, 3]).events =
      [ { Method := str "POST",
          URL := str "https://prometheus-us-central1.grafana.net/api/prom/push",
          Header :=
            [ (str "Content-Encoding", [str "snappy"]),
              (str "Content-Type", [str "application/x-protobuf"]),
              (str "User-Agent", [str "CustomClient/1.0.0"]),
              (str "X-Prometheus-Remote-Write-Version", [str "0.1.0"]),
              (str "Authorization", [str "Basic MTIzNDU6c2VjcmV0"]) ],
          Body := [1, 2, 3],
          Timeout := some 15000000000 } ] ∧
    Header.values
        [ (str "Content-Encoding", [str "snappy"]),
          (str "Content-Type", [str "application/x-protobuf"]),
          (str "User-Agent", [str "CustomClient/1.0.0"]),
          (str "X-Prometheus-Remote-Write-Version", [str "0.1.0"]),
          (str "Authorization", [str "Basic MTIzNDU6c2VjcmV0"]) ]
        (str "Accept-Encoding") = [] :=
  ⟨(store_request_contract ⟨answering ⟨str "200 OK", 200, []⟩, str "12345", str "secret"⟩
      [1, 2, 3]).1,
   (store_request_contract ⟨answering ⟨str "200 OK", 200, []⟩, str "12345", str "secret"⟩
      [1, 2, 3]).2
      { Method := str "POST",
        URL := str "https://prometheus-us-central1.grafana.net/api/prom/push",
        Header :=
          [ (str "Content-Encoding", [str "snappy"]),
            (str "Content-Type", [str "application/x-protobuf"]),
            (str "User-Agent", [str "CustomClient/1.0.0"]),
            (str "X-Prometheus-Remote-Write-Version", [str "0.1.0"]),
            (str "Authorization", [str "Basic MTIzNDU6c2VjcmV0"]) ],
        Body := [1, 2, 3],
        Timeout := some 15000000000 }
      (by
        rw [transportCalls_store _ _ _ (buildRequest_eq _ _)]
        exact List.mem_singleton.2 rfl)
      (str "Accept-Encoding") (by decide) (by decide) (by decide) (by decide) (by decide)⟩

/-- C9: when the transport call fails, `Store` returns that same error value
unchanged; the transport has been called exactly once and the response path
(classification, diagnostic line, closing of a body) has not run. -/
theorem store_transport_failure (c : Client) (req : Bytes) (err : GoError)
    (hdo : ∃ httpReq, c.buildRequest req = .ok httpReq ∧ c.client httpReq = .error err) :
    (c.Store req).val = some err ∧
    (transportCalls (c.Store req).events).length = 1 ∧
    Event.bodyClosed ∉ (c.Store req).events := by
  obtain ⟨httpReq, hreq, hfail⟩ := hdo
  rw [store_of_failure c req httpReq err hreq hfail]
  simp [transportCalls]

theorem store_transport_failure_witness :
    (Client.Store ⟨failing (.foreign (str "context deadline exceeded")),
        str "12345", str "secret"⟩ [1, 2, 3]).val
      = some (.foreign (str "context deadline exceeded")) ∧
    (transportCalls (Client.Store ⟨failing (.foreign (str "context deadline exceeded")),
        str "12345", str "secret"⟩ [1, 2, 3]).events).length = 1 ∧
    Event.bodyClosed ∉ (Client.Store ⟨failing (.foreign (str "context deadline exceeded")),
        str "12345", str "secret"⟩ [1, 2, 3]).events :=
  store_transport_failure _ _ _ ⟨_, buildRequest_eq _ _, rfl⟩

/-! ## The decoders invert the encoders -/

theorem readUvarint_putUvarint (fuel n : Nat) (rest : Bytes) (h : n ≤ fuel) :
    readUvarint (putUvarint fuel n ++ rest) = some (n, rest) := by
  induction fuel generalizing n with
  | zero =>
    obtain rfl : n = 0 := by omega
    rfl
  | succ fuel ih =>
    unfold putUvarint
    by_cases hn : n < 128
    · have hlt : UInt8.ofNat n < 128 := by
        show n % 256 < 128
        omega
      have hval : (UInt8.ofNat n).toNat = n := by
        show n % 256 = n
        omega
      simp [hn, readUvarint, hlt, hval]
    · have hge : ¬ UInt8.ofNat (n % 128 + 128) < 128 := by
        show ¬ (n % 128 + 128) % 256 < 128
        omega
      have hval : (UInt8.ofNat (n % 128 + 128)).toNat = n % 128 + 128 := by
        show (n % 128 + 128) % 256 = n % 128 + 128
        omega
      simp only [hn, if_false, List.cons_append, readUvarint, hge, ih (n / 128) (by omega)]
      rw [hval]
      congr 2
      omega

theorem readUvarint_uvarint (n : Nat) (rest : Bytes) :
    readUvarint (uvarint n ++ rest) = some (n, rest) :=
  readUvarint_putUvarint n n rest (Nat.le_refl n)

theorem readLE_putLE (k n : Nat) (rest : Bytes) (h : n < 256 ^ k) :
    readLE k (putLE k n ++ rest) = some (n, rest) := by
  induction k generalizing n with
  | zero =>
    obtain rfl : n = 0 := by simpa using h
    rfl
  | succ k ih =>
    have hq : n / 256 < 256 ^ k := by
      rw [Nat.div_lt_iff_lt_mul (by decide)]
      rw [pow_succ] at h
      exact h
    have hval : (UInt8.ofNat (n % 256)).toNat = n % 256 := by
      show n % 256 % 256 = n % 256
      omega
    have hsum : (UInt8.ofNat (n % 256)).toNat + 256 * (n / 256) = n := by
      rw [hval]
      omega
    show (match readLE k (putLE k (n / 256) ++ rest) with
      | some (v, rest) => some ((UInt8.ofNat (n % 256)).toNat + 256 * v, rest)
      | none => none) = some (n, rest)
    rw [ih (n / 256) hq]
    simp only [hsum]

theorem readFields_bytes (fuel key n : Nat) (input rest1 rest2 : Bytes) (hne : input ≠ [])
    (hkey : readUvarint input = some (key, rest1)) (h2 : key % 8 = 2)
    (hlen : readUvarint rest1 = some (n, rest2)) (hn : n ≤ rest2.length) :
    readFields (fuel + 1) input
      = (readFields fuel (rest2.drop n)).map ((key / 8, FieldValue.bytes (rest2.take n)) :: ·) := by
  cases input with
  | nil => exact absurd rfl hne
  | cons b bs =>
    have h0 : ¬ key % 8 = 0 := by omega
    have h1 : ¬ key % 8 = 1 := by omega
    have hn' : ¬ rest2.length < n := by omega
    simp only [readFields]
    rw [hkey]
    simp only [h0, h1, h2, if_true, if_false]
    rw [hlen]
    simp [hn']

theorem readFields_fixed (fuel key n : Nat) (input rest1 rest2 : Bytes) (hne : input ≠ [])
    (hkey : readUvarint input = some (key, rest1)) (h1 : key % 8 = 1)
    (hval : readLE 8 rest1 = some (n, rest2)) :
    readFields (fuel + 1) input
      = (readFields fuel rest2).map ((key / 8, FieldValue.fixed64 n) :: ·) := by
  cases input with
  | nil => exact absurd rfl hne
  | cons b bs =>
    have h0 : ¬ key % 8 = 0 := by omega
    simp only [readFields]
    rw [hkey]
    simp only [h0, h1, if_true, if_false]
    rw [hval]
    simp

theorem readFields_number (fuel key n : Nat) (input rest1 rest2 : Bytes) (hne : input ≠ [])
    (hkey : readUvarint input = some (key, rest1)) (h0 : key % 8 = 0)
    (hval : readUvarint rest1 = some (n, rest2)) :
    readFields (fuel + 1) input
      = (readFields fuel rest2).map ((key / 8, FieldValue.varint n) :: ·) := by
  cases input with
  | nil => exact absurd rfl hne
  | cons b bs =>
    simp only [readFields]
    rw [hkey]
    simp only [h0, if_true]
    rw [hval]

theorem readUvarint_small (key : UInt8) (rest : Bytes) (hk : key.toNat < 128) :
    readUvarint (key :: rest) = some (key.toNat, rest) := by
  have hlt : key < 128 := hk
  simp [readUvarint, hlt]

theorem readFields_nil (fuel : Nat) : readFields fuel [] = some [] := by
  cases fuel <;> rfl

theorem readFields_encodeField (fuel : Nat) (f : Field) (rest : Bytes) (hf : f.Plain) :
    readFields (fuel + 1) (encodeField f ++ rest) = (readFields fuel rest).map (f :: ·) := by
  obtain ⟨num, v⟩ := f
  cases v with
  | varint n =>
    have hnum : num < 16 := hf
    have hkey : (UInt8.ofNat (num * 8)).toNat = num * 8 := by
      show num * 8 % 256 = num * 8
      omega
    have h := readFields_number fuel (num * 8) n (encodeField (num, .varint n) ++ rest)
      (uvarint n ++ rest) rest (by simp [encodeField])
      (by
        have := readUvarint_small (UInt8.ofNat (num * 8)) (uvarint n ++ rest) (by omega)
        rw [hkey] at this
        simpa [encodeField] using this)
      (by omega) (readUvarint_uvarint _ _)
    rw [h]
    have hq : num * 8 / 8 = num := by omega
    simp [hq]
  | fixed64 n =>
    obtain ⟨hnum, hn⟩ : num < 16 ∧ n < 2 ^ 64 := hf
    have hkey : (UInt8.ofNat (num * 8 + 1)).toNat = num * 8 + 1 := by
      show (num * 8 + 1) % 256 = num * 8 + 1
      omega
    have h := readFields_fixed fuel (num * 8 + 1) n (encodeField (num, .fixed64 n) ++ rest)
      (putLE 8 n ++ rest) rest (by simp [encodeField])
      (by
        have := readUvarint_small (UInt8.ofNat (num * 8 + 1)) (putLE 8 n ++ rest) (by omega)
        rw [hkey] at this
        simpa [encodeField] using this)
      (by omega) (readLE_putLE 8 n rest (by norm_num at hn ⊢; exact hn))
    rw [h]
    have hq : (num * 8 + 1) / 8 = num := by omega
    simp [hq]
  | bytes content =>
    have hnum : num < 16 := hf
    have hkey : (UInt8.ofNat (num * 8 + 2)).toNat = num * 8 + 2 := by
      show (num * 8 + 2) % 256 = num * 8 + 2
      omega
    have h := readFields_bytes fuel (num * 8 + 2) content.length
      (encodeField (num, .bytes content) ++ rest)
      (uvarint content.length ++ (content ++ rest)) (content ++ rest) (by simp [encodeField])
      (by
        have := readUvarint_small (UInt8.ofNat (num * 8 + 2))
          (uvarint content.length ++ (content ++ rest)) (by omega)
        rw [hkey] at this
        simpa [encodeField] using this)
      (by omega) (readUvarint_uvarint _ _) (by simp)
    rw [h]
    have hq : (num * 8 + 2) / 8 = num := by omega
    simp [hq]

theorem readFields_encodeFields (fs : List Field) (fuel : Nat) (rest : Bytes)
    (hfs : ∀ f ∈ fs, f.Plain) :
    readFields (fs.length + fuel) (encodeFields fs ++ rest)
      = (readFields fuel rest).map (fs ++ ·) := by
  induction fs with
  | nil => simp [encodeFields]
  | cons f fs ih =>
    have hstep : (f :: fs).length + fuel = (fs.length + fuel) + 1 := by
      simp only [List.length_cons]
      omega
    have henc : encodeFields (f :: fs) ++ rest = encodeField f ++ (encodeFields fs ++ rest) := by
      simp [encodeFields]
    rw [hstep, henc, readFields_encodeField _ f _ (hfs f (List.mem_cons_self _ _)),
      ih (fun g hg => hfs g (List.mem_cons_of_mem _ hg))]
    cases readFields fuel rest <;> simp

theorem encodeField_length_pos (f : Field) : 0 < (encodeField f).length := by
  obtain ⟨num, v⟩ := f
  cases v <;> simp [encodeField]

theorem length_le_encodeFields (fs : List Field) : fs.length ≤ (encodeFields fs).length := by
  induction fs with
  | nil => simp
  | cons f fs ih =>
    have := encodeField_length_pos f
    simp only [encodeFields, List.map_cons, List.flatten_cons, List.length_append,
      List.length_cons] at *
    omega

theorem fieldsOf_encodeFields (fs : List Field) (hfs : ∀ f ∈ fs, f.Plain) :
    fieldsOf (encodeFields fs) = some fs := by
  unfold fieldsOf
  obtain ⟨k, hk⟩ := Nat.exists_eq_add_of_le (length_le_encodeFields fs)
  have h := readFields_encodeFields fs k [] hfs
  rw [List.append_nil] at h
  rw [hk, h, readFields_nil]
  simp

theorem decodeLabel_encodeLabel (l : Label) : decodeLabel (encodeLabel l) = some l := by
  have hplain : ∀ f ∈ labelFields l, f.Plain := by
    intro f hf
    unfold labelFields at hf
    by_cases h1 : l.Name = [] <;> by_cases h2 : l.Value = [] <;>
      simp [h1, h2] at hf <;> rcases hf with rfl | rfl <;> simp [Field.Plain]
  unfold decodeLabel encodeLabel
  rw [fieldsOf_encodeFields _ hplain]
  obtain ⟨name, value⟩ := l
  by_cases h1 : name = [] <;> by_cases h2 : value = [] <;>
    simp [labelFields, labelOfFields, h1, h2]

theorem toInt64_bits (t : Int) (hlo : -(2 ^ 63) ≤ t) (hhi : t < 2 ^ 63) :
    toInt64 ((t % 2 ^ 64).toNat % 2 ^ 64) = t := by
  unfold toInt64
  have hnn : (0 : Int) ≤ t % 2 ^ 64 := Int.emod_nonneg _ (by norm_num)
  have hlt : t % 2 ^ 64 < 2 ^ 64 := Int.emod_lt_of_pos _ (by norm_num)
  have hcast : (((t % 2 ^ 64).toNat : Nat) : Int) = t % 2 ^ 64 := Int.toNat_of_nonneg hnn
  have hsmall : (t % 2 ^ 64).toNat < 2 ^ 64 := by
    have : (((t % 2 ^ 64).toNat : Nat) : Int) < 2 ^ 64 := by rw [hcast]; exact hlt
    exact_mod_cast this
  rw [Nat.mod_eq_of_lt hsmall]
  by_cases hneg : t < 0
  · have hmod : t % 2 ^ 64 = t + 2 ^ 64 := by omega
    have hbig : ¬ (t % 2 ^ 64).toNat < 2 ^ 63 := by
      intro h
      have : (((t % 2 ^ 64).toNat : Nat) : Int) < 2 ^ 63 := by exact_mod_cast h
      rw [hcast, hmod] at this
      omega
    rw [if_neg hbig, hcast, hmod]
    ring
  · have hmod : t % 2 ^ 64 = t := by omega
    have hlow : (t % 2 ^ 64).toNat < 2 ^ 63 := by
      have : (((t % 2 ^ 64).toNat : Nat) : Int) < 2 ^ 63 := by rw [hcast, hmod]; exact hhi
      exact_mod_cast this
    rw [if_pos hlow, hcast, hmod]

theorem decodeSample_encodeSample (s : Sample) (hs : s.Exact) :
    decodeSample (encodeSample s) = some s := by
  obtain ⟨hbits, hnz, hlo, hhi⟩ := hs
  have hplain : ∀ f ∈ sampleFields s, f.Plain := by
    intro f hf
    simp only [sampleFields, List.mem_append] at hf
    rcases hf with hf | hf
    · split at hf
      · simp at hf
      · rw [List.mem_singleton] at hf
        subst hf
        exact ⟨by decide, hbits⟩
    · split at hf
      · simp at hf
      · rw [List.mem_singleton] at hf
        subst hf
        show 2 < 16
        decide
  unfold decodeSample encodeSample
  rw [fieldsOf_encodeFields _ hplain]
  have htime := toInt64_bits s.Timestamp hlo hhi
  obtain ⟨⟨bits⟩, t⟩ := s
  simp only at hbits hnz hlo hhi htime
  norm_num at htime
  by_cases h1 : bits % 9223372036854775808 = 0
  · have hzero : bits = 0 := by omega
    by_cases h2 : t = 0
    · simp [sampleFields, sampleOfFields, h2, hzero]
    · simp [sampleFields, sampleOfFields, h2, hzero, htime]
  · by_cases h2 : t = 0
    · simp [sampleFields, sampleOfFields, h1, h2]
    · simp [sampleFields, sampleOfFields, h1, h2, htime]

theorem foldl_labels (labels : List Label) (acc : TimeSeries) :
    (labels.map fun l => ((1, .bytes (encodeLabel l)) : Field)).foldl addSeriesField (some acc)
      = some { acc with Labels := acc.Labels ++ labels } := by
  induction labels generalizing acc with
  | nil => simp
  | cons l ls ih =>
    simp only [List.map_cons, List.foldl_cons, addSeriesField, decodeLabel_encodeLabel,
      Option.map_some']
    rw [ih]
    simp

theorem foldl_samples (samples : List Sample) (acc : TimeSeries)
    (hs : ∀ s ∈ samples, s.Exact) :
    (samples.map fun s => ((2, .bytes (encodeSample s)) : Field)).foldl addSeriesField (some acc)
      = some { acc with Samples := acc.Samples ++ samples } := by
  induction samples generalizing acc with
  | nil => simp
  | cons s ss ih =>
    simp only [List.map_cons, List.foldl_cons, addSeriesField,
      decodeSample_encodeSample s (hs s (List.mem_cons_self _ _)), Option.map_some']
    rw [ih _ (fun x hx => hs x (List.mem_cons_of_mem _ hx))]
    simp

theorem decodeTimeSeries_encodeTimeSeries (ts : TimeSeries) (hs : ∀ s ∈ ts.Samples, s.Exact) :
    decodeTimeSeries (encodeTimeSeries ts) = some ts := by
  have hplain : ∀ f ∈ timeSeriesFields ts, f.Plain := by
    intro f hf
    simp only [timeSeriesFields, List.mem_append, List.mem_map] at hf
    rcases hf with ⟨l, _, rfl⟩ | ⟨x, _, rfl⟩
    · show 1 < 16
      decide
    · show 2 < 16
      decide
  unfold decodeTimeSeries encodeTimeSeries
  rw [fieldsOf_encodeFields _ hplain]
  simp only [timeSeriesFields, List.foldl_append]
  rw [foldl_labels, foldl_samples _ _ hs]
  simp

theorem foldl_series (series : List TimeSeries) (acc : WriteRequest)
    (hs : ∀ ts ∈ series, ∀ s ∈ ts.Samples, s.Exact) :
    (series.map fun ts => ((1, .bytes (encodeTimeSeries ts)) : Field)).foldl addRequestField
        (some acc)
      = some { acc with Timeseries := acc.Timeseries ++ series } := by
  induction series generalizing acc with
  | nil => simp
  | cons ts rest ih =>
    simp only [List.map_cons, List.foldl_cons, addRequestField,
      decodeTimeSeries_encodeTimeSeries ts (hs ts (List.mem_cons_self _ _)), Option.map_some']
    rw [ih _ (fun x hx => hs x (List.mem_cons_of_mem _ hx))]
    simp

theorem decodeWireRequest_encodeWriteRequest (r : WriteRequest) (hr : r.Exact) :
    decodeWireRequest (encodeWriteRequest r) = some r := by
  have hplain : ∀ f ∈ writeRequestFields r, f.Plain := by
    intro f hf
    simp only [writeRequestFields, List.mem_map] at hf
    obtain ⟨ts, _, rfl⟩ := hf
    show 1 < 16
    decide
  unfold decodeWireRequest encodeWriteRequest
  rw [fieldsOf_encodeFields _ hplain]
  simp only [writeRequestFields]
  rw [foldl_series _ _ hr]
  simp

theorem decodeElements_nil (fuel : Nat) (out : Bytes) : decodeElements fuel [] out = some out := by
  cases fuel <;> rfl

theorem decodeElements_literal (fuel : Nat) (tag : UInt8) (rest rest2 out : Bytes) (v n : Nat)
    (hmod : tag.toNat % 4 = 0)
    (hread : readLE (if tag.toNat / 4 < 60 then 0 else tag.toNat / 4 - 59) rest = some (v, rest2))
    (hn : n = if tag.toNat / 4 < 60 then tag.toNat / 4 + 1 else v + 1)
    (hlen : n ≤ rest2.length) :
    decodeElements (fuel + 1) (tag :: rest) out
      = decodeElements fuel (rest2.drop n) (out ++ rest2.take n) := by
  have hlen' : ¬ rest2.length < n := by omega
  simp only [decodeElements, hmod, if_true]
  rw [hread]
  simp only [← hn, hlen', if_false]

theorem decodeElements_emitLiteral (fuel : Nat) (lit rest out : Bytes)
    (h1 : 0 < lit.length) (h2 : lit.length ≤ 65536) :
    decodeElements (fuel + 1) (emitLiteral lit ++ rest) out
      = decodeElements fuel rest (out ++ lit) := by
  unfold emitLiteral
  by_cases ha : lit.length - 1 < 60
  · have htag : (UInt8.ofNat ((lit.length - 1) * 4)).toNat = (lit.length - 1) * 4 := by
      show (lit.length - 1) * 4 % 256 = (lit.length - 1) * 4
      omega
    have hx : (lit.length - 1) * 4 / 4 = lit.length - 1 := by omega
    have h := decodeElements_literal fuel (UInt8.ofNat ((lit.length - 1) * 4)) (lit ++ rest)
      (lit ++ rest) out 0 lit.length (by rw [htag]; omega)
      (by rw [htag, hx, if_pos ha]; rfl) (by rw [htag, hx, if_pos ha]; omega) (by simp)
    simpa [ha] using h
  · by_cases hb : lit.length - 1 < 256
    · have hbyte : (UInt8.ofNat (lit.length - 1)).toNat = lit.length - 1 := by
        show (lit.length - 1) % 256 = lit.length - 1
        omega
      have hread : readLE 1 (UInt8.ofNat (lit.length - 1) :: (lit ++ rest))
          = some (lit.length - 1, lit ++ rest) := by
        simp [readLE, hbyte]
      have h := decodeElements_literal fuel 240 (UInt8.ofNat (lit.length - 1) :: (lit ++ rest))
        (lit ++ rest) out (lit.length - 1) lit.length (by decide) hread
        (by
          have : (240 : UInt8).toNat / 4 = 60 := by decide
          rw [this]
          simp
          omega)
        (by simp)
      simpa [ha, hb] using h
    · have hlow : (UInt8.ofNat ((lit.length - 1) % 256)).toNat = (lit.length - 1) % 256 := by
        show (lit.length - 1) % 256 % 256 = (lit.length - 1) % 256
        omega
      have hhigh : (UInt8.ofNat ((lit.length - 1) / 256)).toNat = (lit.length - 1) / 256 := by
        show (lit.length - 1) / 256 % 256 = (lit.length - 1) / 256
        omega
      have hread : readLE 2 (UInt8.ofNat ((lit.length - 1) % 256) ::
          UInt8.ofNat ((lit.length - 1) / 256) :: (lit ++ rest))
          = some (lit.length - 1, lit ++ rest) := by
        simp only [readLE, hlow, hhigh]
        congr 2
        omega
      have h := decodeElements_literal fuel 244 (UInt8.ofNat ((lit.length - 1) % 256) ::
          UInt8.ofNat ((lit.length - 1) / 256) :: (lit ++ rest))
        (lit ++ rest) out (lit.length - 1) lit.length (by decide) hread
        (by
          have : (244 : UInt8).toNat / 4 = 61 := by decide
          rw [this]
          simp
          omega)
        (by simp)
      simpa [ha, hb] using h

theorem emitLiteral_length_pos (lit : Bytes) : 0 < (emitLiteral lit).length := by
  unfold emitLiteral
  simp only
  split
  · simp
  · split <;> simp

theorem Decodes.refl (out : Bytes) : Decodes [] out out :=
  ⟨0, Nat.le_refl _, fun _ _ => rfl⟩

theorem Decodes.append {e1 e2 a b c : Bytes} (h1 : Decodes e1 a b) (h2 : Decodes e2 b c) :
    Decodes (e1 ++ e2) a c := by
  obtain ⟨k1, hk1, d1⟩ := h1
  obtain ⟨k2, hk2, d2⟩ := h2
  refine ⟨k2 + k1, by simp only [List.length_append]; omega, fun rest fuel => ?_⟩
  rw [List.append_assoc, ← Nat.add_assoc, d1, d2]

theorem Decodes.literal (lit out : Bytes) (h1 : 0 < lit.length) (h2 : lit.length ≤ 65536) :
    Decodes (emitLiteral lit) out (out ++ lit) :=
  ⟨1, emitLiteral_length_pos lit, fun rest fuel =>
    decodeElements_emitLiteral fuel lit rest out h1 h2⟩

theorem decodeElements_copy2 (fuel : Nat) (tag b0 b1 : UInt8) (rest out out' : Bytes)
    (hmod : tag.toNat % 4 = 2)
    (hcopy : copyBack (1 + tag.toNat / 4) (b0.toNat + 256 * b1.toNat) out = some out') :
    decodeElements (fuel + 1) (tag :: b0 :: b1 :: rest) out = decodeElements fuel rest out' := by
  have h0 : ¬ tag.toNat % 4 = 0 := by omega
  have h1 : ¬ tag.toNat % 4 = 1 := by omega
  have hread : readLE 2 (b0 :: b1 :: rest) = some (b0.toNat + 256 * b1.toNat, rest) := by
    simp [readLE]
  simp only [decodeElements, h0, h1, if_false]
  rw [if_pos hmod, hread]
  simp only [hcopy]

theorem decodeElements_copy1 (fuel : Nat) (tag b : UInt8) (rest out out' : Bytes)
    (hmod : tag.toNat % 4 = 1)
    (hcopy : copyBack (4 + tag.toNat / 4 % 8) (tag.toNat / 32 * 256 + b.toNat) out = some out') :
    decodeElements (fuel + 1) (tag :: b :: rest) out = decodeElements fuel rest out' := by
  have h0 : ¬ tag.toNat % 4 = 0 := by omega
  simp only [decodeElements, h0, if_false]
  simp only [hmod, if_true, hcopy]

theorem take_succ_getD (src : Bytes) (n : Nat) (h : n < src.length) :
    src.take (n + 1) = src.take n ++ [src.getD n 0] := by
  rw [List.take_succ, List.getD_eq_getElem?_getD, List.getElem?_eq_getElem h]
  rfl

theorem copyBack_periodic (src pre : Bytes) (offset : Nat) (hoff : 0 < offset) :
    ∀ n base, offset ≤ base → base + n ≤ src.length →
      (∀ i, base ≤ i → i < base + n → src.getD i 0 = src.getD (i - offset) 0) →
      copyBack n offset (pre ++ src.take base) = some (pre ++ src.take (base + n)) := by
  intro n
  induction n with
  | zero => intro base _ _ _; rfl
  | succ n ih =>
    intro base hbase hlen hper
    have hb : base < src.length := by omega
    have hlenout : (pre ++ src.take base).length = pre.length + base := by
      simp [List.length_take, Nat.min_eq_left (Nat.le_of_lt hb)]
    have hidx : (pre ++ src.take base)[(pre ++ src.take base).length - offset]?
        = some (src.getD base 0) := by
      rw [hlenout]
      have e : pre.length + base - offset = pre.length + (base - offset) := by omega
      rw [e, List.getElem?_append_right (by omega)]
      have e2 : pre.length + (base - offset) - pre.length = base - offset := by omega
      rw [e2, List.getElem?_take, if_pos (by omega), hper base (Nat.le_refl _) (by omega),
        List.getD_eq_getElem?_getD,
        List.getElem?_eq_getElem (by omega : base - offset < src.length)]
      rfl
    have hguard : ¬ (offset = 0 ∨ (pre ++ src.take base).length < offset) := by
      rw [hlenout]; omega
    unfold copyBack
    rw [if_neg hguard, hidx]
    simp only
    have hnext : pre ++ src.take base ++ [src.getD base 0] = pre ++ src.take (base + 1) := by
      rw [take_succ_getD src base hb, List.append_assoc]
    rw [hnext, ih (base + 1) (by omega) (by omega)
      (fun i h1 h2 => hper i (by omega) (by omega))]
    congr 3
    omega

theorem offset_bytes (offset : Nat) (h : offset < 65536) :
    (UInt8.ofNat offset).toNat + 256 * (UInt8.ofNat (offset / 256)).toNat = offset := by
  show offset % 256 + 256 * (offset / 256 % 256) = offset
  omega

theorem Decodes.copy2 (src pre : Bytes) (offset length base : Nat) (hoff : 0 < offset)
    (hoff2 : offset < 65536) (h1 : 1 ≤ length) (h64 : length ≤ 64) (hbase : offset ≤ base)
    (hlen : base + length ≤ src.length)
    (hper : ∀ i, base ≤ i → i < base + length → src.getD i 0 = src.getD (i - offset) 0) :
    Decodes [UInt8.ofNat ((length - 1) * 4 + 2), UInt8.ofNat offset, UInt8.ofNat (offset / 256)]
      (pre ++ src.take base) (pre ++ src.take (base + length)) := by
  refine ⟨1, by simp, fun rest fuel => ?_⟩
  have htag : (UInt8.ofNat ((length - 1) * 4 + 2)).toNat = (length - 1) * 4 + 2 := by
    show ((length - 1) * 4 + 2) % 256 = (length - 1) * 4 + 2
    omega
  have hcopy := copyBack_periodic src pre offset hoff length base hbase hlen hper
  exact decodeElements_copy2 fuel _ _ _ rest _ _ (by rw [htag]; omega)
    (by
      rw [htag, offset_bytes offset hoff2]
      have e : 1 + ((length - 1) * 4 + 2) / 4 = length := by omega
      rw [e]
      exact hcopy)

theorem Decodes.copy1 (src pre : Bytes) (offset length base : Nat) (hoff : 0 < offset)
    (hoff2 : offset < 2048) (h4 : 4 ≤ length) (h12 : length < 12) (hbase : offset ≤ base)
    (hlen : base + length ≤ src.length)
    (hper : ∀ i, base ≤ i → i < base + length → src.getD i 0 = src.getD (i - offset) 0) :
    Decodes [UInt8.ofNat (offset / 256 * 32 + (length - 4) * 4 + 1), UInt8.ofNat offset]
      (pre ++ src.take base) (pre ++ src.take (base + length)) := by
  refine ⟨1, by simp, fun rest fuel => ?_⟩
  have htag : (UInt8.ofNat (offset / 256 * 32 + (length - 4) * 4 + 1)).toNat
      = offset / 256 * 32 + (length - 4) * 4 + 1 := by
    show (offset / 256 * 32 + (length - 4) * 4 + 1) % 256 = offset / 256 * 32 + (length - 4) * 4 + 1
    omega
  have hlow : (UInt8.ofNat offset).toNat = offset % 256 := rfl
  have hcopy := copyBack_periodic src pre offset hoff length base hbase hlen hper
  exact decodeElements_copy1 fuel _ _ rest _ _ (by rw [htag]; omega)
    (by
      rw [htag, hlow]
      have e1 : 4 + (offset / 256 * 32 + (length - 4) * 4 + 1) / 4 % 8 = length := by omega
      have e2 : (offset / 256 * 32 + (length - 4) * 4 + 1) / 32 * 256 + offset % 256 = offset := by
        omega
      rw [e1, e2]
      exact hcopy)

theorem periodic_tail {src : Bytes} {offset base length : Nat} (k : Nat)
    (hper : ∀ i, base ≤ i → i < base + length → src.getD i 0 = src.getD (i - offset) 0) :
    ∀ i, base + k ≤ i → i < base + k + (length - k) → src.getD i 0 = src.getD (i - offset) 0 :=
  fun i h1 h2 => hper i (by omega) (by omega)

theorem emitCopyTail_decodes (src pre : Bytes) (offset length base : Nat) (hoff : 0 < offset)
    (hoff2 : offset < 65536) (h4 : 4 ≤ length) (h68 : length < 68) (hbase : offset ≤ base)
    (hlen : base + length ≤ src.length)
    (hper : ∀ i, base ≤ i → i < base + length → src.getD i 0 = src.getD (i - offset) 0) :
    Decodes (emitCopyTail offset length)
      (pre ++ src.take base) (pre ++ src.take (base + length)) := by
  unfold emitCopyTail
  by_cases hbig : length > 64
  · have hhead : Decodes [238, UInt8.ofNat offset, UInt8.ofNat (offset / 256)]
        (pre ++ src.take base) (pre ++ src.take (base + 60)) :=
      Decodes.copy2 src pre offset 60 base hoff hoff2 (by omega) (by omega) hbase (by omega)
        (fun i a b => hper i a (by omega))
    have hrest : ∀ i, base + 60 ≤ i → i < base + 60 + (length - 60) →
        src.getD i 0 = src.getD (i - offset) 0 := periodic_tail 60 hper
    have hsum : base + 60 + (length - 60) = base + length := by omega
    simp only [hbig, if_true]
    have hsmall : ¬ (length - 60 ≥ 12) := by omega
    by_cases hfar : offset ≥ 2048
    · rw [if_pos (Or.inr hfar)]
      have := Decodes.copy2 src pre offset (length - 60) (base + 60) hoff hoff2 (by omega)
        (by omega) (by omega) (by omega) hrest
      rw [hsum] at this
      exact hhead.append this
    · rw [if_neg (by omega)]
      have := Decodes.copy1 src pre offset (length - 60) (base + 60) hoff (by omega) (by omega)
        (by omega) (by omega) (by omega) hrest
      rw [hsum] at this
      exact hhead.append this
  · simp only [hbig, if_false, List.nil_append]
    by_cases hthree : length ≥ 12 ∨ offset ≥ 2048
    · rw [if_pos hthree]
      exact Decodes.copy2 src pre offset length base hoff hoff2 (by omega) (by omega) hbase hlen
        hper
    · rw [if_neg hthree]
      exact Decodes.copy1 src pre offset length base hoff (by omega) h4 (by omega) hbase hlen hper

theorem emitCopy_decodes (src pre : Bytes) (offset : Nat) (hoff : 0 < offset)
    (hoff2 : offset < 65536) :
    ∀ fuel length base, length ≤ fuel → 4 ≤ length → offset ≤ base →
      base + length ≤ src.length →
      (∀ i, base ≤ i → i < base + length → src.getD i 0 = src.getD (i - offset) 0) →
      Decodes (emitCopy fuel offset length)
        (pre ++ src.take base) (pre ++ src.take (base + length)) := by
  intro fuel
  induction fuel with
  | zero => intro length base h0 h4; omega
  | succ fuel ih =>
    intro length base hfuel h4 hbase hlen hper
    unfold emitCopy
    by_cases h68 : length ≥ 68
    · rw [if_pos h68]
      have hhead : Decodes [254, UInt8.ofNat offset, UInt8.ofNat (offset / 256)]
          (pre ++ src.take base) (pre ++ src.take (base + 64)) :=
        Decodes.copy2 src pre offset 64 base hoff hoff2 (by omega) (by omega) hbase (by omega)
          (fun i a b => hper i a (by omega))
      have hrest := ih (length - 64) (base + 64) (by omega) (by omega) (by omega) (by omega)
        (periodic_tail 64 hper)
      have hsum : base + 64 + (length - 64) = base + length := by omega
      rw [hsum] at hrest
      exact hhead.append hrest
    · rw [if_neg h68]
      exact emitCopyTail_decodes src pre offset length base hoff hoff2 h4 (by omega) hbase hlen
        hper

theorem extendMatch_spec (src : Bytes) :
    ∀ fuel i s, s ≤ src.length →
      s ≤ extendMatch src fuel i s ∧ extendMatch src fuel i s ≤ src.length ∧
      ∀ k, k < extendMatch src fuel i s - s → src.getD (i + k) 0 = src.getD (s + k) 0 := by
  intro fuel
  induction fuel with
  | zero =>
    intro i s hs
    simp [extendMatch, hs]
  | succ fuel ih =>
    intro i s hs
    unfold extendMatch
    by_cases hc : s < src.length ∧ src.getD i 0 = src.getD s 0
    · rw [if_pos hc]
      obtain ⟨h1, h2, h3⟩ := ih (i + 1) (s + 1) (by omega)
      refine ⟨by omega, h2, fun k hk => ?_⟩
      cases k with
      | zero => exact hc.2
      | succ k =>
        have := h3 k (by omega)
        rw [show i + (k + 1) = i + 1 + k by omega, show s + (k + 1) = s + 1 + k by omega]
        exact this
    · rw [if_neg hc]
      exact ⟨Nat.le_refl _, hs, fun k hk => by omega⟩

theorem byte_eq_of_toNat {a b : UInt8} (h : a.toNat = b.toNat) : a = b :=
  UInt8.toNat.inj h

theorem load32_bytes (b : Bytes) (i j : Nat) (h : load32 b i = load32 b j) :
    ∀ k, k < 4 → b.getD (i + k) 0 = b.getD (j + k) 0 := by
  unfold load32 at h
  have a0 := UInt8.toNat_lt_size (b.getD i 0)
  have a1 := UInt8.toNat_lt_size (b.getD (i + 1) 0)
  have a2 := UInt8.toNat_lt_size (b.getD (i + 2) 0)
  have a3 := UInt8.toNat_lt_size (b.getD (i + 3) 0)
  have c0 := UInt8.toNat_lt_size (b.getD j 0)
  have c1 := UInt8.toNat_lt_size (b.getD (j + 1) 0)
  have c2 := UInt8.toNat_lt_size (b.getD (j + 2) 0)
  have c3 := UInt8.toNat_lt_size (b.getD (j + 3) 0)
  simp only [UInt8.size] at a0 a1 a2 a3 c0 c1 c2 c3
  intro k hk
  have hk' : k = 0 ∨ k = 1 ∨ k = 2 ∨ k = 3 := by omega
  rcases hk' with rfl | rfl | rfl | rfl
  · exact byte_eq_of_toNat (by simp only [Nat.add_zero]; omega)
  · exact byte_eq_of_toNat (by omega)
  · exact byte_eq_of_toNat (by omega)
  · exact byte_eq_of_toNat (by omega)

theorem load64_middle (b : Bytes) (i : Nat) :
    load64 b i / 256 % 4294967296 = load32 b (i + 1) := by
  unfold load64 load32
  have a0 := UInt8.toNat_lt_size (b.getD i 0)
  have a1 := UInt8.toNat_lt_size (b.getD (i + 1) 0)
  have a2 := UInt8.toNat_lt_size (b.getD (i + 2) 0)
  have a3 := UInt8.toNat_lt_size (b.getD (i + 3) 0)
  have a4 := UInt8.toNat_lt_size (b.getD (i + 4) 0)
  have a5 := UInt8.toNat_lt_size (b.getD (i + 4 + 1) 0)
  have a6 := UInt8.toNat_lt_size (b.getD (i + 4 + 2) 0)
  have a7 := UInt8.toNat_lt_size (b.getD (i + 4 + 3) 0)
  simp only [UInt8.size] at a0 a1 a2 a3 a4 a5 a6 a7
  have e1 : i + 1 + 1 = i + 2 := by omega
  have e2 : i + 1 + 2 = i + 3 := by omega
  have e3 : i + 1 + 3 = i + 4 := by omega
  rw [e1, e2, e3]
  omega

theorem emitRemainder_decodes (src pre : Bytes) (n : Nat) (hn : n ≤ src.length)
    (hmax : src.length ≤ 65536) :
    Decodes (emitRemainder src n) (pre ++ src.take n) (pre ++ src) := by
  unfold emitRemainder
  by_cases h : n < src.length
  · rw [if_pos h]
    have := Decodes.literal (src.drop n) (pre ++ src.take n)
      (by rw [List.length_drop]; omega) (by rw [List.length_drop]; omega)
    rwa [List.append_assoc, List.take_append_drop] at this
  · rw [if_neg h, List.take_of_length_le (by omega)]
    exact Decodes.refl _

theorem setEntry_le (table : Nat → Nat) (slot value bound : Nat) (hv : value ≤ bound)
    (ht : ∀ h, table h ≤ bound) : ∀ h, setEntry table slot value h ≤ bound := by
  intro h
  unfold setEntry
  split
  · exact hv
  · exact ht h

theorem match_periodic (src : Bytes) (base candidate : Nat) (hc : candidate < base)
    (hb : base + 4 ≤ src.length) (hm : load32 src base = load32 src candidate) :
    ∀ i, base ≤ i →
      i < base + (extendMatch src src.length (candidate + 4) (base + 4) - base) →
      src.getD i 0 = src.getD (i - (base - candidate)) 0 := by
  intro i h1 h2
  obtain ⟨e1, _, e3⟩ := extendMatch_spec src src.length (candidate + 4) (base + 4) hb
  by_cases hi : i < base + 4
  · have := load32_bytes src base candidate hm (i - base) (by omega)
    rw [show base + (i - base) = i by omega,
      show candidate + (i - base) = i - (base - candidate) by omega] at this
    exact this
  · have := e3 (i - (base + 4)) (by omega)
    rw [show base + 4 + (i - (base + 4)) = i by omega,
      show candidate + 4 + (i - (base + 4)) = i - (base - candidate) by omega] at this
    exact this.symm

theorem encodeBlockLoop_decodes (src pre : Bytes) (shift : Nat) (h17 : 17 ≤ src.length)
    (hmax : src.length ≤ 65536) :
    ∀ fuel table st, st.Sound src table → st.steps src.length < fuel →
      Decodes (encodeBlockLoop src shift fuel table st)
        (pre ++ src.take st.emitted) (pre ++ src) := by
  intro fuel
  induction fuel with
  | zero => intro table st _ h; omega
  | succ fuel ih =>
    intro table st hs hm
    cases st with
    | scan nextS skip nextHash nextEmit =>
      obtain ⟨h1, h2, h3, h4⟩ := hs
      simp only [BlockState.steps] at hm
      simp only [BlockState.emitted]
      have hb : 1 ≤ skip / 32 := by omega
      rw [encodeBlockLoop]
      simp only [inputMargin]
      by_cases hlim : nextS + skip / 32 > src.length - 15
      · rw [if_pos hlim]
        exact emitRemainder_decodes src pre nextEmit (by omega) hmax
      · rw [if_neg hlim]
        by_cases hmatch : load32 src nextS = load32 src (table (nextHash % 16384))
        · rw [if_pos hmatch]
          have hlit := Decodes.literal ((src.drop nextEmit).take (nextS - nextEmit))
            (pre ++ src.take nextEmit)
            (by rw [List.length_take, List.length_drop]; omega)
            (by rw [List.length_take, List.length_drop]; omega)
          have htake : src.take nextEmit ++ (src.drop nextEmit).take (nextS - nextEmit)
              = src.take nextS := by
            rw [← List.take_add]
            congr 1
            omega
          rw [List.append_assoc, htake] at hlit
          refine hlit.append ?_
          exact ih _ (.copy nextS (table (nextHash % 16384)))
            ⟨h4 _, by omega, hmatch,
              setEntry_le table _ _ nextS (Nat.mod_le _ _) (fun h => Nat.le_of_lt (h4 h))⟩
            (by simp only [BlockState.steps]; omega)
        · rw [if_neg hmatch]
          exact ih _ (.scan (nextS + skip / 32) (skip + skip / 32) _ nextEmit)
            ⟨by omega, by omega, by omega, fun h =>
              Nat.lt_of_le_of_lt
                (setEntry_le table _ _ nextS (Nat.mod_le _ _) (fun h => Nat.le_of_lt (h4 h)) h)
                (by omega)⟩
            (by simp only [BlockState.steps]; omega)
    | copy base candidate =>
      obtain ⟨j1, j2, j3, j4⟩ := hs
      simp only [BlockState.steps] at hm
      simp only [BlockState.emitted]
      obtain ⟨e1, e2, _⟩ := extendMatch_spec src src.length (candidate + 4) (base + 4) j2
      have hper := match_periodic src base candidate j1 j2 j3
      rw [encodeBlockLoop]
      simp only [inputMargin]
      generalize hs' : extendMatch src src.length (candidate + 4) (base + 4) = s at e1 e2 hper ⊢
      have hcopy := emitCopy_decodes src pre (base - candidate) (by omega) (by omega)
        (s - base) (s - base) base (Nat.le_refl _) (by omega) (by omega) (by omega) hper
      rw [show base + (s - base) = s by omega] at hcopy
      refine hcopy.append ?_
      by_cases hlim : s ≥ src.length - 15
      · rw [if_pos hlim]
        exact emitRemainder_decodes src pre s e2 hmax
      · rw [if_neg hlim]
        have hmid : load64 src (s - 1) / 256 % 4294967296 = load32 src s := by
          rw [load64_middle, show s - 1 + 1 = s by omega]
        have ht1 : ∀ h, setEntry table (hash (load64 src (s - 1) % 4294967296) shift % 16384)
            ((s - 1) % 65536) h ≤ s - 1 :=
          setEntry_le table _ _ (s - 1) (Nat.mod_le _ _) (fun h => by have := j4 h; omega)
        have ht2 : ∀ h, setEntry
            (setEntry table (hash (load64 src (s - 1) % 4294967296) shift % 16384)
              ((s - 1) % 65536))
            (hash (load64 src (s - 1) / 256 % 4294967296) shift % 16384) (s % 65536) h ≤ s :=
          setEntry_le _ _ _ s (Nat.mod_le _ _) (fun h => by have := ht1 h; omega)
        split
        · exact ih _ (.scan (s + 1) 32 _ s)
            ⟨by omega, by omega, by omega, fun h => Nat.lt_succ_of_le (ht2 h)⟩
            (by simp only [BlockState.steps]; omega)
        · rename_i hnot
          have heq : load32 src s = load32 src
              (setEntry table (hash (load64 src (s - 1) % 4294967296) shift % 16384)
                ((s - 1) % 65536)
                (hash (load64 src (s - 1) / 256 % 4294967296) shift % 16384)) := by
            rw [← hmid]
            exact not_not.mp hnot
          exact ih _ (.copy s _)
            ⟨by have := ht1 (hash (load64 src (s - 1) / 256 % 4294967296) shift % 16384); omega,
              by omega, heq, ht2⟩
            (by simp only [BlockState.steps]; omega)

theorem encodeBlock_decodes (src pre : Bytes) (h17 : 17 ≤ src.length)
    (hmax : src.length ≤ 65536) : Decodes (encodeBlock src) pre (pre ++ src) := by
  have h := encodeBlockLoop_decodes src pre (tableShift 6 256 24 src.length) h17 hmax
    (2 * src.length + 1) (fun _ => 0)
    (.scan 1 32 (hash (load32 src 1) (tableShift 6 256 24 src.length)) 0)
    ⟨by omega, by omega, by omega, fun _ => Nat.zero_lt_one⟩
    (by simp only [BlockState.steps]; omega)
  simpa [BlockState.emitted, encodeBlock] using h

theorem encodeBlocks_decodes :
    ∀ fuel (src pre : Bytes), src.length ≤ fuel →
      Decodes (encodeBlocks fuel src) pre (pre ++ src) := by
  intro fuel
  induction fuel with
  | zero =>
    intro src pre h
    have : src = [] := List.eq_nil_of_length_eq_zero (by omega)
    subst this
    simpa [encodeBlocks] using Decodes.refl pre
  | succ fuel ih =>
    intro src pre h
    cases src with
    | nil => simpa [encodeBlocks] using Decodes.refl pre
    | cons b bs =>
      have hunfold : encodeBlocks (fuel + 1) (b :: bs)
          = (if ((b :: bs).take maxBlockSize).length < minNonLiteralBlockSize then
              emitLiteral ((b :: bs).take maxBlockSize)
            else encodeBlock ((b :: bs).take maxBlockSize))
            ++ encodeBlocks fuel ((b :: bs).drop maxBlockSize) := rfl
      rw [hunfold]
      have hlenp : ((b :: bs).take maxBlockSize).length ≤ 65536 := by
        simp [maxBlockSize, List.length_take]
      have hpos : 0 < ((b :: bs).take maxBlockSize).length := by
        simp [maxBlockSize, List.length_take]
      have hrest := ih ((b :: bs).drop maxBlockSize) (pre ++ (b :: bs).take maxBlockSize)
        (by
          simp only [maxBlockSize, List.length_drop, List.length_cons] at h ⊢
          omega)
      rw [List.append_assoc, List.take_append_drop] at hrest
      by_cases hsmall : ((b :: bs).take maxBlockSize).length < minNonLiteralBlockSize
      · rw [if_pos hsmall]
        exact (Decodes.literal _ pre hpos hlenp).append hrest
      · rw [if_neg hsmall]
        exact (encodeBlock_decodes _ pre
          (by simp only [minNonLiteralBlockSize, inputMargin] at hsmall; omega) hlenp).append hrest

theorem blockDecode_snappyEncode (src : Bytes) : blockDecode (snappyEncode src) = some src := by
  unfold blockDecode snappyEncode
  rw [readUvarint_uvarint]
  simp only
  obtain ⟨k, hk, hdec⟩ := encodeBlocks_decodes src.length src [] (Nat.le_refl _)
  have h := hdec [] ((encodeBlocks src.length src).length - k)
  rw [List.append_nil, Nat.sub_add_cancel hk, decodeElements_nil] at h
  rw [h]
  simp

theorem wireCodec_inverts (r : WriteRequest) (hr : r.Exact) :
    wireCodec.protoMarshal r = .ok (encodeWriteRequest r) ∧
    wireCodec.snappyDecode (wireCodec.snappyEncode (encodeWriteRequest r))
      = .ok (encodeWriteRequest r) ∧
    wireCodec.protoUnmarshal (encodeWriteRequest r) = .ok r := by
  refine ⟨rfl, ?_, ?_⟩
  · simp only [wireCodec, blockDecode_snappyEncode]
  · simp only [wireCodec, decodeWireRequest_encodeWriteRequest r hr]

/-- The payload of the example request with the clock readings of `sampleEnv`:
108 serialized bytes, compressed to 89 bytes. -/
theorem snappyEncode_example :
    snappyEncode (encodeWriteRequest
        { Timeseries := buildExampleWriteRequest sampleEnv.now1 sampleEnv.now2 }) =
      [ 108, 184, 10, 106, 10, 25, 10, 8, 95, 95, 110, 97, 109, 101, 95, 95, 18, 13,
        114, 97, 110, 100, 111, 109, 95, 109, 101, 116, 114, 105, 99, 10, 41, 10, 18,
        101, 120, 97, 109, 112, 108, 101, 95, 108, 97, 98, 101, 108, 95, 1, 39, 4, 18,
        19, 54, 20, 0, 32, 118, 97, 108, 117, 101, 18, 16, 9, 0, 5, 1, 32, 240, 63, 16,
        152, 248, 185, 187, 200, 46, 46, 18, 0, 20, 128, 128, 186, 187, 200, 46 ] := by
  decide

/-! ## Properties of `marshalWriteRequest` -/

/-- C1 as stated fails: `marshalWriteRequest` succeeds on a series whose one
sample has the value negative zero, and decompressing and deserializing the
payload yields a sample of value positive zero, which is not the input. -/
theorem marshalWriteRequest_negative_zero :
    marshalWriteRequest wireCodec negativeZeroSeries = .ok [6, 20, 10, 4, 18, 2, 16, 5] ∧
    decodeWriteRequest wireCodec [6, 20, 10, 4, 18, 2, 16, 5]
      = .ok { Timeseries :=
          [ { Labels := [], Samples := [ { Value := ⟨0⟩, Timestamp := 5 } ] } ] } ∧
    [ ({ Labels := [], Samples := [ { Value := ⟨0⟩, Timestamp := 5 } ] } : TimeSeries) ]
      ≠ negativeZeroSeries := by
  refine ⟨?_, ?_, by decide⟩
  · have h : snappyEncode (encodeWriteRequest { Timeseries := negativeZeroSeries })
        = [6, 20, 10, 4, 18, 2, 16, 5] := by decide
    simp only [marshalWriteRequest, wireCodec, h]
  · have h1 : blockDecode [6, 20, 10, 4, 18, 2, 16, 5] = some [10, 4, 18, 2, 16, 5] := by decide
    have h2 : decodeWireRequest [10, 4, 18, 2, 16, 5]
        = some { Timeseries :=
            [ { Labels := [], Samples := [ { Value := ⟨0⟩, Timestamp := 5 } ] } ] } := by decide
    simp only [decodeWriteRequest, wireCodec, h1, h2]

/-- C1 (amended): round trip of `marshalWriteRequest`. For every sequence of
series, the empty one included, in which no sample value is negative zero
(values being 64-bit patterns and timestamps `int64` values, as their Go types
make them), `marshalWriteRequest` succeeds, and decompressing its payload with
snappy and deserializing the result yields a `WriteRequest` whose series are
the input: the same series, labels and samples in the same order, sample values
compared bit for bit. -/
theorem marshalWriteRequest_roundtrip (samples : List TimeSeries)
    (hexact : WriteRequest.Exact { Timeseries := samples }) :
    (∃ payload, marshalWriteRequest wireCodec samples = .ok payload) ∧
    ∀ payload, marshalWriteRequest wireCodec samples = .ok payload →
      ∃ decoded, decodeWriteRequest wireCodec payload = .ok decoded ∧
        decoded.Timeseries = samples := by
  have hm : marshalWriteRequest wireCodec samples
      = .ok (snappyEncode (encodeWriteRequest { Timeseries := samples })) := rfl
  refine ⟨⟨_, hm⟩, fun payload hok => ?_⟩
  rw [hm] at hok
  have hp : snappyEncode (encodeWriteRequest { Timeseries := samples }) = payload :=
    Except.ok.inj hok
  subst hp
  refine ⟨{ Timeseries := samples }, ?_, rfl⟩
  simp only [decodeWriteRequest, wireCodec, blockDecode_snappyEncode,
    decodeWireRequest_encodeWriteRequest _ hexact]

theorem marshalWriteRequest_roundtrip_witness :
    ∃ decoded,
      decodeWriteRequest wireCodec
          (snappyEncode (encodeWriteRequest
            { Timeseries := buildExampleWriteRequest sampleEnv.now1 sampleEnv.now2 }))
        = .ok decoded ∧
      decoded.Timeseries = buildExampleWriteRequest sampleEnv.now1 sampleEnv.now2 :=
  (marshalWriteRequest_roundtrip (buildExampleWriteRequest sampleEnv.now1 sampleEnv.now2)
    (by decide)).2 _ rfl

/-- C8: `marshalWriteRequest` fails exactly when `proto.Marshal` of the envelope
fails, and then with that very error and no payload; otherwise it succeeds with
the snappy encoding of the serialized bytes, so the compression step adds no
failure. In particular, as the empty envelope serializes to zero bytes, the
empty sequence of series yields the compression of the empty serialization. -/
theorem marshalWriteRequest_failure_exact (lib : Codec) (samples : List TimeSeries) :
    (∀ err, marshalWriteRequest lib samples = .error err ↔
      lib.protoMarshal { Timeseries := samples } = .error err) ∧
    (∀ payload, marshalWriteRequest lib samples = .ok payload ↔
      ∃ data, lib.protoMarshal { Timeseries := samples } = .ok data ∧
        payload = lib.snappyEncode data) ∧
    (lib.protoMarshal { Timeseries := [] } = .ok [] →
      marshalWriteRequest lib [] = .ok (lib.snappyEncode [])) := by
  refine ⟨?_, ?_, ?_⟩
  · intro err
    cases hm : lib.protoMarshal { Timeseries := samples } <;> simp [marshalWriteRequest, hm]
  · intro payload
    cases hm : lib.protoMarshal { Timeseries := samples } <;>
      simp [marshalWriteRequest, hm, eq_comm]
  · intro h
    simp [marshalWriteRequest, h]

theorem marshalWriteRequest_failure_exact_witness :
    marshalWriteRequest wireCodec [] = .ok [0] :=
  (marshalWriteRequest_failure_exact wireCodec []).2.2 rfl

/-! ## Properties of `buildExampleWriteRequest` -/

theorem wrapInt64_of_range (x : Int) (hlo : -(2 ^ 63) ≤ x) (hhi : x < 2 ^ 63) :
    wrapInt64 x = x := by
  unfold wrapInt64
  omega

/-- C10: `buildExampleWriteRequest` returns exactly one series, with the labels
`(__name__, random_metric)` and `(example_label_name, example_label_value)` in
this order and two samples of value 1. For clock readings `t1 ≤ t2` whose
millisecond timestamps fit an `int64`, the first timestamp is
`1000 * (unixSeconds t1 - 1)`, the second is `1000 * unixSeconds t2`, both are
multiples of 1000 and the first is not greater than the second. -/
theorem buildExampleWriteRequest_shape (t1 t2 : Time) (hle : t1.unixNano ≤ t2.unixNano)
    (hlo : -(2 ^ 63) ≤ 1000 * (t1.Unix - 1)) (hhi : 1000 * t2.Unix < 2 ^ 63) :
    ∃ ts1 ts2 : Int,
      buildExampleWriteRequest t1 t2 =
        [ { Labels :=
              [ { Name := str "__name__", Value := str "random_metric" },
                { Name := str "example_label_name", Value := str "example_label_value" } ],
            Samples :=
              [ { Value := Float64.one, Timestamp := ts1 },
                { Value := Float64.one, Timestamp := ts2 } ] } ] ∧
      ts1 = 1000 * (t1.Unix - 1) ∧ ts2 = 1000 * t2.Unix ∧
      (1000 : Int) ∣ ts1 ∧ (1000 : Int) ∣ ts2 ∧ ts1 ≤ ts2 := by
  have hsec : t1.Unix ≤ t2.Unix := by
    unfold Time.Unix
    omega
  have h1 : mulInt64 (t1.Add (-Second)).Unix 1000 = 1000 * (t1.Unix - 1) := by
    unfold mulInt64
    have hu : (t1.Add (-Second)).Unix = t1.Unix - 1 := by
      show (t1.unixNano + -1000000000) / 1000000000 = t1.unixNano / 1000000000 - 1
      omega
    rw [hu, wrapInt64_of_range _ (by omega) (by omega)]
    ring
  have h2 : mulInt64 t2.Unix 1000 = 1000 * t2.Unix := by
    unfold mulInt64
    rw [wrapInt64_of_range _ (by omega) (by omega)]
    ring
  refine ⟨1000 * (t1.Unix - 1), 1000 * t2.Unix, ?_, rfl, rfl, Dvd.intro _ rfl, Dvd.intro _ rfl,
    by omega⟩
  unfold buildExampleWriteRequest
  rw [h1, h2]

theorem buildExampleWriteRequest_shape_witness :
    ∃ ts1 ts2 : Int,
      buildExampleWriteRequest ⟨1600000000500000000⟩ ⟨1600000000500001000⟩ =
        [ { Labels :=
              [ { Name := str "__name__", Value := str "random_metric" },
                { Name := str "example_label_name", Value := str "example_label_value" } ],
            Samples :=
              [ { Value := Float64.one, Timestamp := ts1 },
                { Value := Float64.one, Timestamp := ts2 } ] } ] ∧
      ts1 = 1000 * ((⟨1600000000500000000⟩ : Time).Unix - 1) ∧
      ts2 = 1000 * (⟨1600000000500001000⟩ : Time).Unix ∧
      (1000 : Int) ∣ ts1 ∧ (1000 : Int) ∣ ts2 ∧ ts1 ≤ ts2 :=
  buildExampleWriteRequest_shape ⟨1600000000500000000⟩ ⟨1600000000500001000⟩
    (by decide) (by decide) (by decide)

/-! ## Properties of `main` -/

/-- C7: `checkSet s` is true exactly when `s` is not the empty string. With an
empty `-instance.id`, `main` prints `error: -instance.id not set` and exits
with status 1; with a non-empty id and an empty `-api.key` it prints
`error: -api.key not set` and exits with status 1; in both cases the print is
the only event, so nothing has been encoded and the transport has not been
called. With both flags non-empty, a transport that answers every request with
status 200, and a serialization of the example request that succeeds, `main`
ends with exit status 0. -/
theorem main_cli_validation (env : Env) (id key : GoString) :
    (∀ s : GoString, checkSet s = true ↔ s ≠ []) ∧
    (id = [] → (main env id key).val = 1 ∧
      (main env id key).events = [.println (str "error: -instance.id not set")]) ∧
    (id ≠ [] → key = [] → (main env id key).val = 1 ∧
      (main env id key).events = [.println (str "error: -api.key not set")]) ∧
    (id ≠ [] → key ≠ [] →
      (∃ data, env.lib.protoMarshal
        { Timeseries := buildExampleWriteRequest env.now1 env.now2 } = .ok data) →
      (∀ r, ∃ resp, env.DefaultClient r = .ok resp ∧ resp.StatusCode = 200) →
      (main env id key).val = 0) := by
  have hcheck : ∀ s : GoString, checkSet s = true ↔ s ≠ [] := by
    intro s
    unfold checkSet
    by_cases h : s = [] <;> simp [h]
  refine ⟨hcheck, ?_, ?_, ?_⟩
  · intro hid
    subst hid
    exact ⟨rfl, rfl⟩
  · intro hid hkey
    subst hkey
    simp [main, checkSet, hid]
  · intro hid hkey hmarshal hdo
    obtain ⟨data, hdata⟩ := hmarshal
    have h1 : checkSet id = true := (hcheck id).2 hid
    have h2 : checkSet key = true := (hcheck key).2 hkey
    have hm : marshalWriteRequest env.lib (buildExampleWriteRequest env.now1 env.now2)
        = .ok (env.lib.snappyEncode data) := by
      simp [marshalWriteRequest, hdata]
    obtain ⟨resp, hresp, hcode⟩ := hdo _
    have hstore := store_of_response
      { client := env.DefaultClient, id := id, key := key } (env.lib.snappyEncode data) _ resp
      (buildRequest_eq _ _) hresp
    have h200 : resp.StatusCode.tdiv 100 = 2 := by rw [hcode]; decide
    simp [main, h1, h2, hm, hstore, h200]

theorem main_cli_validation_witness :
    (main sampleEnv [] (str "secret")).val = 1 ∧
    (main sampleEnv [] (str "secret")).events = [.println (str "error: -instance.id not set")] ∧
    (main sampleEnv (str "12345") []).val = 1 ∧
    (main sampleEnv (str "12345") []).events = [.println (str "error: -api.key not set")] ∧
    (main sampleEnv (str "12345") (str "secret")).val = 0 :=
  ⟨((main_cli_validation sampleEnv [] (str "secret")).2.1 rfl).1,
   ((main_cli_validation sampleEnv [] (str "secret")).2.1 rfl).2,
   ((main_cli_validation sampleEnv (str "12345") []).2.2.1 (by decide) rfl).1,
   ((main_cli_validation sampleEnv (str "12345") []).2.2.1 (by decide) rfl).2,
   (main_cli_validation sampleEnv (str "12345") (str "secret")).2.2.2 (by decide) (by decide)
     ⟨_, rfl⟩ (fun _ => ⟨_, rfl, rfl⟩)⟩

end RemoteWrite
